import Mathlib

/-!
Bothell File System: the file-operation API of `fs.c`.

A shallow embedding of `fsSeek`, `fsTell`, `fsSize`, `fsRead` and `fsWrite`
from `src/fs.c`, together with the lower layer (`bfs*`, `bio*`) they call.
The lower layer is declared in `bfs.h` and is not part of the sources at
hand; each of its functions is modelled from the specification and marked so.

Conventions.
* `i32` values are `Int`s; every `+` and `-` of the source is wrapped to
  32-bit two's complement by `wrap32`, `/` and `%` truncate toward zero.
* The block size `BYTESPERBLOCK` comes from `bfs.h`; it is the parameter `B`.
* A disk block and a caller buffer are functions from byte offset to byte.
* `FATAL(e)` ends the run: a call yields `Res.fatal e st` where `st` is the
  state at the moment of the abort.
-/

namespace BFS

/-! ## Machine integers -/

/-- Two's-complement reduction of an integer to the range of `i32`. -/
def wrap32 (x : Int) : Int := (x + 2147483648) % 4294967296 - 2147483648

/-- The `i32` sum `a + b`. -/
def i32add (a b : Int) : Int := wrap32 (a + b)

/-- The `i32` difference `a - b`. -/
def i32sub (a b : Int) : Int := wrap32 (a - b)

/-- The `i32` quotient `a / b` of C (truncation toward zero). -/
def i32div (a b : Int) : Int := wrap32 (Int.tdiv a b)

/-- The `i32` remainder `a % b` of C (sign of the dividend). -/
def i32mod (a b : Int) : Int := Int.tmod a b

/-! ## Data model -/

/-- Diagnostics of `FATAL`. `EBADCURS` and `EBADWHENCE` are raised by `fs.c`
itself; the others stand for the fatal conditions of the lower layer (invalid
descriptor, no open-file-table entry, file block not mapped, disk block number
out of range, free list exhausted, open file table full, descriptor table
full). `fuel` marks a loop that does not end. -/
inductive Err where
  | EBADCURS
  | EBADWHENCE
  | badDescriptor
  | noOftEntry
  | unmappedBlock
  | badDbn
  | diskFull
  | oftFull
  | fdFull
  | fuel
  deriving DecidableEq

/-- An inode: the file size in bytes and the block map, whose entry `k` is the
disk block number of file block `k`. -/
structure Inode where
  size : Int
  blockMap : List Nat
  deriving DecidableEq

/-- An entry of the open file table `g_oft`. A slot with `refs = 0` is unused. -/
structure OFTE where
  inum : Nat
  curs : Int
  refs : Nat
  deriving DecidableEq

/-- The state of the file system: disk blocks, the inode table, the free list,
the directory (file name to inode number), the open file table and the
descriptor table (descriptor `fd` is bound to the inode `fds[fd]`). -/
structure FS where
  disk : Nat → Nat → Nat
  totalBlocks : Nat
  inodes : Nat → Inode
  free : List Nat
  dir : List (String × Nat)
  oft : List OFTE
  fds : List (Option Nat)

/-- Outcome of an API call: a returned value with the new state, or a fatal
abort with its diagnostic and the state reached when the run ended. -/
inductive Res (α : Type) where
  | ok : α → FS → Res α
  | fatal : Err → FS → Res α

/-- The state in which a call ended, whether it returned or aborted. -/
def Res.state {α : Type} : Res α → FS
  | .ok _ st => st
  | .fatal _ st => st

/-- `whence` value of `<stdio.h>`: absolute position. -/
def SEEK_SET : Int := 0
/-- `whence` value of `<stdio.h>`: relative to the cursor. -/
def SEEK_CUR : Int := 1
/-- `whence` value of `<stdio.h>`: relative to the end of the file. -/
def SEEK_END : Int := 2

/-- C `memcpy(dst + dOff, src + sOff, len)` on byte arrays seen as functions. -/
def memcpy (dst : Nat → Nat) (dOff : Nat) (src : Nat → Nat) (sOff len : Nat) : Nat → Nat :=
  fun i => if dOff ≤ i ∧ i < dOff + len then src (sOff + (i - dOff)) else dst i

/-! ## Lower layer (`bfs.h`) -/

/-- Modelled from the spec: `bfsFdToInum` is declared in `bfs.h`. A descriptor
is a handle into a bounded table; an invalid descriptor is fatal. -/
def bfsFdToInum (st : FS) (fd : Int) : Except Err Nat :=
  if fd < 0 then .error .badDescriptor
  else match st.fds.getD fd.toNat none with
    | some inum => .ok inum
    | none => .error .badDescriptor

/-- Index of the first used open-file-table entry of inode `inum`. -/
def findOFTE : List OFTE → Nat → Option Nat
  | [], _ => none
  | e :: es, inum =>
    if e.refs ≠ 0 ∧ e.inum = inum then some 0 else (findOFTE es inum).map (· + 1)

/-- Modelled from the spec: `bfsFindOFTE` is declared in `bfs.h`. There is
one open-file-table entry per open inode; the call yields its index. -/
def bfsFindOFTE (st : FS) (inum : Nat) : Except Err Nat :=
  match findOFTE st.oft inum with
  | some i => .ok i
  | none => .error .noOftEntry

/-- The value of `g_oft[ofte].curs`. -/
def oftCurs (st : FS) (ofte : Nat) : Int :=
  match st.oft[ofte]? with
  | some e => e.curs
  | none => 0

/-- List-level assignment `oft[i].curs = c`. -/
def setCursAt : List OFTE → Nat → Int → List OFTE
  | [], _, _ => []
  | e :: es, 0, c => { e with curs := c } :: es
  | e :: es, i + 1, c => e :: setCursAt es i c

/-- The assignment `g_oft[ofte].curs = c`. -/
def setCurs (st : FS) (ofte : Nat) (c : Int) : FS :=
  { st with oft := setCursAt st.oft ofte c }

/-- Modelled from the spec: `bfsTell` is declared in `bfs.h`; it yields the
cursor of the open-file-table entry the descriptor is bound to. -/
def bfsTell (st : FS) (fd : Int) : Except Err Int :=
  match bfsFdToInum st fd with
  | .error e => .error e
  | .ok inum =>
    match bfsFindOFTE st inum with
    | .error e => .error e
    | .ok ofte => .ok (oftCurs st ofte)

/-- Modelled from the spec: `bfsGetSize` is declared in `bfs.h`. -/
def bfsGetSize (st : FS) (inum : Nat) : Int := (st.inodes inum).size

/-- Modelled from the spec: `bfsSetSize` is declared in `bfs.h`; it stores the
size and never touches the block map. -/
def bfsSetSize (st : FS) (inum : Nat) (size : Int) : FS :=
  { st with inodes := Function.update st.inodes inum { st.inodes inum with size := size } }

/-- Modelled from the spec: `bfsFbnToDbn` is declared in `bfs.h`; it looks up
the disk block of a file block, which must already be mapped. -/
def bfsFbnToDbn (st : FS) (inum : Nat) (fbn : Int) : Except Err Nat :=
  if fbn < 0 then .error .unmappedBlock
  else match (st.inodes inum).blockMap[fbn.toNat]? with
    | some dbn => .ok dbn
    | none => .error .unmappedBlock

/-- Modelled from the spec: `bioRead` is declared in `bfs.h`; the disk block
number must lie in `[0, totalBlocks)`. -/
def bioRead (st : FS) (dbn : Nat) : Except Err (Nat → Nat) :=
  if dbn < st.totalBlocks then .ok (st.disk dbn) else .error .badDbn

/-- Modelled from the spec: `bioWrite` is declared in `bfs.h`; the disk block
number must lie in `[0, totalBlocks)`. -/
def bioWrite (st : FS) (dbn : Nat) (blk : Nat → Nat) : Res Unit :=
  if dbn < st.totalBlocks then .ok () { st with disk := Function.update st.disk dbn blk }
  else .fatal .badDbn st

/-- Modelled from the spec: `bfsRead` is declared in `bfs.h`; it reads the
disk block mapped to file block `fbn` of inode `inum`. -/
def bfsRead (st : FS) (inum : Nat) (fbn : Int) : Except Err (Nat → Nat) :=
  match bfsFbnToDbn st inum fbn with
  | .error e => .error e
  | .ok dbn => bioRead st dbn

/-- Number of blocks needed to hold `size` bytes, `ceil(size / B)`. -/
def blocksFor (B : Nat) (size : Int) : Nat := (size.toNat + B - 1) / B

/-- Allocation loop of `bfsExtend`: visits `k` file blocks from `f` on, and
gives every one that is not mapped yet a block popped off the free list. -/
def extendLoop (inum : Nat) : Nat → Nat → FS → Res Unit
  | 0, _, st => .ok () st
  | k + 1, f, st =>
    if f < (st.inodes inum).blockMap.length then extendLoop inum k (f + 1) st
    else if f = (st.inodes inum).blockMap.length then
      match st.free with
      | [] => .fatal .diskFull st
      | d :: rest =>
        extendLoop inum k (f + 1)
          { st with
            free := rest
            inodes := Function.update st.inodes inum
              { st.inodes inum with blockMap := (st.inodes inum).blockMap ++ [d] } }
    else .fatal .unmappedBlock st

/-- Modelled from the spec: `bfsExtend` is declared in `bfs.h`. Section 4.4:
it "allocates and maps new DBNs for every FBN needed to cover the inode's
updated size, starting at `fromFbn`"; an exhausted free list is fatal and what
was mapped before the abort stays mapped. The updated size is the one the
write records right after the call (section 4.7: the write "first extends the
inode's block map to cover the new size, then updates size"); it is the
argument `newSize`. -/
def bfsExtend (B : Nat) (st : FS) (inum : Nat) (fromFbn newSize : Int) : Res Unit :=
  extendLoop inum (blocksFor B newSize - fromFbn.toNat) fromFbn.toNat st

/-- Directory search: the inode number recorded for a file name. -/
def dirFind : List (String × Nat) → String → Option Nat
  | [], _ => none
  | (name, inum) :: rest, fname => if name = fname then some inum else dirFind rest fname

/-- Modelled from the spec: `bfsLookupFile` is declared in `bfs.h`. It looks
the name up in the directory and yields its inode number, or the code `EFNF`
when the name is absent; it changes nothing. The value of `EFNF` comes from
`bfs.h` and is a parameter. -/
def bfsLookupFile (EFNF : Int) (st : FS) (fname : String) : Int :=
  match dirFind st.dir fname with
  | some inum => (inum : Int)
  | none => EFNF

/-- Index of the first unused slot of the open file table. -/
def freeOFTE : List OFTE → Option Nat
  | [] => none
  | e :: es => if e.refs = 0 then some 0 else (freeOFTE es).map (· + 1)

/-- Index of the first unbound descriptor. -/
def freeFd : List (Option Nat) → Option Nat
  | [] => none
  | none :: _ => some 0
  | some _ :: rest => (freeFd rest).map (· + 1)

/-- Modelled from the spec: `bfsInumToFd` is declared in `bfs.h`. If the inode
has an open-file-table entry its reference count goes up by one, otherwise an
unused entry is taken with cursor `0` and reference count `1`; a new
descriptor is bound to the inode and returned. A full table is fatal. -/
def bfsInumToFd (st : FS) (inum : Nat) : Res Int :=
  let oft1 : Option (List OFTE) :=
    match findOFTE st.oft inum with
    | some i =>
      some (st.oft.modify (fun e => { e with refs := e.refs + 1 }) i)
    | none =>
      match freeOFTE st.oft with
      | some i => some (st.oft.set i { inum := inum, curs := 0, refs := 1 })
      | none => none
  match oft1 with
  | none => .fatal .oftFull st
  | some oft1 =>
    match freeFd st.fds with
    | none => .fatal .fdFull st
    | some fd => .ok (fd : Int) { st with oft := oft1, fds := st.fds.set fd (some inum) }

/-! ## `fs.c` -/

/-- Source `fsOpen`: the descriptor of the existing file `fname`, or `EFNF`. -/
def fsOpen (EFNF : Int) (st : FS) (fname : String) : Res Int :=
  let inum := bfsLookupFile EFNF st fname
  if inum = EFNF then .ok EFNF st else bfsInumToFd st inum.toNat

/-- Source `fsSize`: the size of the file open on `fd`. -/
def fsSize (st : FS) (fd : Int) : Res Int :=
  match bfsFdToInum st fd with
  | .error e => .fatal e st
  | .ok inum => .ok (bfsGetSize st inum) st

/-- Source `fsTell`: the cursor of the file open on `fd`. -/
def fsTell (st : FS) (fd : Int) : Res Int :=
  match bfsTell st fd with
  | .error e => .fatal e st
  | .ok c => .ok c st

/-- Source `fsSeek`: move the cursor of the file open on `fd`. -/
def fsSeek (st : FS) (fd offset whence : Int) : Res Int :=
  if offset < 0 then .fatal .EBADCURS st
  else match bfsFdToInum st fd with
    | .error e => .fatal e st
    | .ok inum =>
      match bfsFindOFTE st inum with
      | .error e => .fatal e st
      | .ok ofte =>
        if whence = SEEK_SET then .ok 0 (setCurs st ofte offset)
        else if whence = SEEK_CUR then
          .ok 0 (setCurs st ofte (i32add (oftCurs st ofte) offset))
        else if whence = SEEK_END then
          match fsSize st fd with
          | .fatal e s => .fatal e s
          | .ok fend s => .ok 0 (setCurs s ofte (i32add fend offset))
        else .fatal .EBADWHENCE st

/-- The `while` loop of `fsRead`. The first argument bounds the number of
iterations; the loop variables are `bytes_read`, `fbn` and the caller buffer. -/
def readLoop (B : Nat) (fd : Int) (inum : Nat) (numb num_blocks : Int) :
    Nat → Int → Int → (Nat → Nat) → FS → Res (Int × (Nat → Nat))
  | 0, bytes_read, fbn, buf, st =>
    if bytes_read < numb ∧ fbn < num_blocks then .fatal .fuel st
    else .ok (bytes_read, buf) st
  | fuel + 1, bytes_read, fbn, buf, st =>
    if bytes_read < numb ∧ fbn < num_blocks then
      match bfsRead st inum fbn with
      | .error e => .fatal e st
      | .ok bioBuf =>
        let to_read : Int :=
          if i32sub numb bytes_read < B then i32sub numb bytes_read else B
        let buf1 := memcpy buf bytes_read.toNat bioBuf 0 to_read.toNat
        match fsSeek st fd to_read SEEK_CUR with
        | .fatal e s => .fatal e s
        | .ok _ st1 =>
          readLoop B fd inum numb num_blocks fuel (i32add bytes_read to_read) (i32add fbn 1)
            buf1 st1
    else .ok (bytes_read, buf) st

/-- Source `fsRead`: read `numb` bytes at the cursor into `buf`. The result is
the number of bytes read together with the buffer after the call. A negative
`memcpy` length (undefined in C) copies nothing. -/
def fsRead (B : Nat) (st : FS) (fd numb : Int) (buf : Nat → Nat) : Res (Int × (Nat → Nat)) :=
  match bfsFdToInum st fd with
  | .error e => .fatal e st
  | .ok inum =>
    match bfsTell st fd with
    | .error e => .fatal e st
    | .ok curs =>
      let size := bfsGetSize st inum
      if curs ≥ size then .ok (0, buf) st
      else
        let numb : Int := if i32add curs numb > size then i32sub size curs else numb
        let fbn := i32div curs B
        let offset := i32mod curs B
        let num_blocks := i32div (i32sub (i32add size B) 1) B
        if offset ≠ 0 then
          match bfsRead st inum fbn with
          | .error e => .fatal e st
          | .ok bioBuf =>
            let to_read : Int :=
              if numb < i32sub B offset then numb else i32sub B offset
            let buf1 := memcpy buf 0 bioBuf offset.toNat to_read.toNat
            match fsSeek st fd to_read SEEK_CUR with
            | .fatal e s => .fatal e s
            | .ok _ st1 =>
              let bytes_read := i32add 0 to_read
              if bytes_read = numb then .ok (bytes_read, buf1) st1
              else
                readLoop B fd inum numb num_blocks (num_blocks - i32add fbn 1).toNat
                  bytes_read (i32add fbn 1) buf1 st1
        else readLoop B fd inum numb num_blocks (num_blocks - fbn).toNat 0 fbn buf st

/-- The `while` loop of `fsWrite`. The first argument bounds the number of
iterations; the loop variables are `bytes_written`, the position `bp` of the
pointer `buf` inside the caller buffer, and `fbn`. -/
def writeLoop (B : Nat) (fd : Int) (inum : Nat) (numb : Int) (buf : Nat → Nat) :
    Nat → Int → Nat → Int → FS → Res Int
  | 0, bytes_written, _, _, st =>
    if bytes_written < numb then .fatal .fuel st else .ok 0 st
  | fuel + 1, bytes_written, bp, fbn, st =>
    if bytes_written < numb then
      match bfsRead st inum fbn with
      | .error e => .fatal e st
      | .ok bioBuf =>
        let to_write : Int :=
          if i32sub numb bytes_written < B then i32sub numb bytes_written else B
        let bioBuf1 := memcpy bioBuf 0 buf bp to_write.toNat
        match bfsFbnToDbn st inum fbn with
        | .error e => .fatal e st
        | .ok dbn =>
          match bioWrite st dbn bioBuf1 with
          | .fatal e s => .fatal e s
          | .ok _ st1 =>
            match fsSeek st1 fd to_write SEEK_CUR with
            | .fatal e s => .fatal e s
            | .ok _ st2 =>
              writeLoop B fd inum numb buf fuel (i32add bytes_written to_write)
                (bp + to_write.toNat) (i32add fbn 1) st2
    else .ok 0 st

/-- Lines 197-200 of source `fsWrite`: when the write ends past the size, extend
the block map from file block `num_blocks` on to cover the new size
`curs + numb`, then record that size. -/
def fsWriteGrow (B : Nat) (st : FS) (inum : Nat) (curs numb size num_blocks : Int) : Res Unit :=
  if i32add curs numb > size then
    match bfsExtend B st inum num_blocks (i32add curs numb) with
    | .fatal e s => .fatal e s
    | .ok _ s => .ok () (bfsSetSize s inum (i32add curs numb))
  else .ok () st

/-- Lines 202-232 of source `fsWrite`: copy `numb` bytes of `buf` into the file
blocks from `fbn` on, starting `offset` bytes into the first one. A negative
`memcpy` length (undefined in C) copies nothing. -/
def fsWriteData (B : Nat) (st1 : FS) (fd : Int) (inum : Nat) (numb : Int) (buf : Nat → Nat)
    (fbn offset : Int) : Res Int :=
  if offset ≠ 0 then
    match bfsRead st1 inum fbn with
    | .error e => .fatal e st1
    | .ok bioBuf =>
      let to_write : Int :=
        if numb < i32sub B offset then numb else i32sub B offset
      let bioBuf1 := memcpy bioBuf offset.toNat buf 0 to_write.toNat
      match bfsFbnToDbn st1 inum fbn with
      | .error e => .fatal e st1
      | .ok dbn =>
        match bioWrite st1 dbn bioBuf1 with
        | .fatal e s => .fatal e s
        | .ok _ st2 =>
          match fsSeek st2 fd to_write SEEK_CUR with
          | .fatal e s => .fatal e s
          | .ok _ st3 =>
            let bytes_written := i32add 0 to_write
            if bytes_written = numb then .ok 0 st3
            else
              writeLoop B fd inum numb buf (numb - bytes_written).toNat bytes_written
                to_write.toNat (i32add fbn 1) st3
  else writeLoop B fd inum numb buf numb.toNat 0 0 fbn st1

/-- Source `fsWrite`: write `numb` bytes of `buf` at the cursor. The body is
`fsWriteGrow` (lines 197-200) followed by `fsWriteData` (lines 202-232). -/
def fsWrite (B : Nat) (st : FS) (fd numb : Int) (buf : Nat → Nat) : Res Int :=
  match bfsFdToInum st fd with
  | .error e => .fatal e st
  | .ok inum =>
    match bfsTell st fd with
    | .error e => .fatal e st
    | .ok curs =>
      let size := bfsGetSize st inum
      let fbn := i32div curs B
      let offset := i32mod curs B
      let num_blocks := i32div (i32sub (i32add size B) 1) B
      match fsWriteGrow B st inum curs numb size num_blocks with
      | .fatal e s => .fatal e s
      | .ok _ st1 => fsWriteData B st1 fd inum numb buf fbn offset

/-! ## Predicates and sample states -/

/-- A descriptor is valid when it is bound to an inode that has an entry in
the open file table. -/
def ValidFd (st : FS) (fd : Int) (inum ofte : Nat) : Prop :=
  bfsFdToInum st fd = .ok inum ∧ bfsFindOFTE st inum = .ok ofte

/-- Membership in the value range of `i32`. -/
def I32 (x : Int) : Prop := -2147483648 ≤ x ∧ x ≤ 2147483647

/-- File blocks `0 .. k-1` of the inode are mapped to disk blocks in range. -/
def Mapped (st : FS) (inum k : Nat) : Prop :=
  ∀ g, g < k → ∃ d, (st.inodes inum).blockMap[g]? = some d ∧ d < st.totalBlocks

/-- The file byte at offset `p`: byte `p % B` of the disk block mapped to file
block `p / B`, when that file block is mapped. -/
def fileByte (B : Nat) (st : FS) (inum p : Nat) : Option Nat :=
  match (st.inodes inum).blockMap[p / B]? with
  | some d => some (st.disk d (p % B))
  | none => none

/-- The state in which the first `m` blocks of the free list have been mapped,
in order, to the file blocks that follow the block map of inode `inum`. -/
def extendBy (st : FS) (inum m : Nat) : FS :=
  { st with
    free := st.free.drop m
    inodes := Function.update st.inodes inum
      { st.inodes inum with blockMap := (st.inodes inum).blockMap ++ st.free.take m } }

/-- The state after disk block `d` has been overwritten with `blk`. -/
def diskPut (st : FS) (d : Nat) (blk : Nat → Nat) : FS :=
  { st with disk := Function.update st.disk d blk }

/-- What a data write through the open-file-table entry `ofte` of inode `inum`
may change between `st` and `s1`: the cursor of that entry and the disk blocks
in the block map of `inum`, nothing else. -/
def WriteFrame (inum ofte : Nat) (st s1 : FS) : Prop :=
  s1.inodes = st.inodes ∧ s1.free = st.free ∧ s1.fds = st.fds ∧ s1.dir = st.dir ∧
  s1.totalBlocks = st.totalBlocks ∧ (∃ c1, s1.oft = setCursAt st.oft ofte c1) ∧
  ∀ d, d ∉ (st.inodes inum).blockMap → s1.disk d = st.disk d

/-- A state with sixteen zeroed disk blocks and one file `a`, inode `0`, open on
descriptor `0`, with the given size, block map, cursor and free list; the
descriptor table has one more, unbound, slot. -/
def oneFileFS (size : Int) (blockMap : List Nat) (curs : Int) (free : List Nat) : FS :=
  { disk := fun _ _ => 0
    totalBlocks := 16
    inodes := fun _ => { size := size, blockMap := blockMap }
    free := free
    dir := [("a", 0)]
    oft := [{ inum := 0, curs := curs, refs := 1 }]
    fds := [some 0, none] }

/-- The state `oneFileFS` with a second descriptor, `1`, bound to the same
inode as descriptor `0`. -/
def twoFdFS (size : Int) (blockMap : List Nat) (curs : Int) : FS :=
  { oneFileFS size blockMap curs [] with
    oft := [{ inum := 0, curs := curs, refs := 2 }]
    fds := [some 0, some 0] }

/-- A one-block file of 64 bytes whose byte at offset `j` is `j + 1`, with the
cursor at offset 5. -/
def patternFS : FS :=
  { oneFileFS 64 [7] 5 [] with disk := fun _ j => j + 1 }

/-- The state reached from an empty file with two mapped blocks by writing 100
bytes `0xAB` at offset 0 and seeking to offset 50 (block size 64). -/
def abFS : FS :=
  (fsSeek (fsWrite 64 (oneFileFS 0 [7, 8] 0 []) 0 100 (fun _ => 171)).state 0 50 SEEK_SET).state

/-! ## Basic facts -/

theorem wrap32_eq {x : Int} (h1 : -2147483648 ≤ x) (h2 : x ≤ 2147483647) : wrap32 x = x := by
  unfold wrap32; omega

theorem findOFTE_lt : ∀ (l : List OFTE) (inum i : Nat), findOFTE l inum = some i → i < l.length
  | [], _, _, h => by simp [findOFTE] at h
  | e :: es, inum, i, h => by
    unfold findOFTE at h
    split at h
    · simp at h; subst h; simp
    · cases hf : findOFTE es inum with
      | none => simp [hf] at h
      | some j =>
        simp [hf] at h; subst h
        have := findOFTE_lt es inum j hf
        simp; omega

theorem findOFTE_setCursAt : ∀ (l : List OFTE) (i : Nat) (c : Int) (inum : Nat),
    findOFTE (setCursAt l i c) inum = findOFTE l inum
  | [], _, _, _ => by simp [setCursAt]
  | e :: es, 0, c, inum => by simp [setCursAt, findOFTE]
  | e :: es, i + 1, c, inum => by
    simp [setCursAt, findOFTE, findOFTE_setCursAt es i c inum]

theorem length_setCursAt : ∀ (l : List OFTE) (i : Nat) (c : Int),
    (setCursAt l i c).length = l.length
  | [], _, _ => by simp [setCursAt]
  | e :: es, 0, c => by simp [setCursAt]
  | e :: es, i + 1, c => by simp [setCursAt, length_setCursAt es i c]

theorem getElem?_setCursAt_ne : ∀ (l : List OFTE) (i j : Nat) (c : Int), i ≠ j →
    (setCursAt l i c)[j]? = l[j]?
  | [], _, _, _, _ => by simp [setCursAt]
  | e :: es, 0, 0, c, h => absurd rfl h
  | e :: es, 0, j + 1, c, _ => by simp [setCursAt]
  | e :: es, i + 1, 0, c, _ => by simp [setCursAt]
  | e :: es, i + 1, j + 1, c, h => by
    simp [setCursAt]
    exact getElem?_setCursAt_ne es i j c (by omega)

theorem getElem?_setCursAt_same : ∀ (l : List OFTE) (i : Nat) (c : Int),
    (setCursAt l i c)[i]? = l[i]?.map (fun e => { e with curs := c })
  | [], _, _ => by simp [setCursAt]
  | e :: es, 0, c => by simp [setCursAt]
  | e :: es, i + 1, c => by
    simp [setCursAt]
    exact getElem?_setCursAt_same es i c

theorem setCursAt_setCursAt : ∀ (l : List OFTE) (i : Nat) (c d : Int),
    setCursAt (setCursAt l i c) i d = setCursAt l i d
  | [], _, _, _ => by simp [setCursAt]
  | e :: es, 0, c, d => by simp [setCursAt]
  | e :: es, i + 1, c, d => by simp [setCursAt, setCursAt_setCursAt es i c d]

@[simp]
theorem setCurs_disk (st : FS) (o : Nat) (c : Int) : (setCurs st o c).disk = st.disk := rfl
@[simp]
theorem setCurs_inodes (st : FS) (o : Nat) (c : Int) :
    (setCurs st o c).inodes = st.inodes := rfl
@[simp]
theorem setCurs_free (st : FS) (o : Nat) (c : Int) : (setCurs st o c).free = st.free := rfl
@[simp]
theorem setCurs_fds (st : FS) (o : Nat) (c : Int) : (setCurs st o c).fds = st.fds := rfl
@[simp]
theorem setCurs_totalBlocks (st : FS) (o : Nat) (c : Int) :
    (setCurs st o c).totalBlocks = st.totalBlocks := rfl
@[simp]
theorem setCurs_oft (st : FS) (o : Nat) (c : Int) :
    (setCurs st o c).oft = setCursAt st.oft o c := rfl

@[simp]
theorem setCurs_setCurs (st : FS) (o : Nat) (c d : Int) :
    setCurs (setCurs st o c) o d = setCurs st o d := by
  simp [setCurs, setCursAt_setCursAt]

@[simp]
theorem bfsFdToInum_setCurs (st : FS) (o : Nat) (c : Int) (fd : Int) :
    bfsFdToInum (setCurs st o c) fd = bfsFdToInum st fd := rfl

@[simp]
theorem bfsFindOFTE_setCurs (st : FS) (o : Nat) (c : Int) (inum : Nat) :
    bfsFindOFTE (setCurs st o c) inum = bfsFindOFTE st inum := by
  simp [bfsFindOFTE, findOFTE_setCursAt]

@[simp]
theorem bfsGetSize_setCurs (st : FS) (o : Nat) (c : Int) (inum : Nat) :
    bfsGetSize (setCurs st o c) inum = bfsGetSize st inum := rfl

@[simp]
theorem bfsFbnToDbn_setCurs (st : FS) (o : Nat) (c : Int) (inum : Nat) (fbn : Int) :
    bfsFbnToDbn (setCurs st o c) inum fbn = bfsFbnToDbn st inum fbn := rfl

@[simp]
theorem bfsRead_setCurs (st : FS) (o : Nat) (c : Int) (inum : Nat) (fbn : Int) :
    bfsRead (setCurs st o c) inum fbn = bfsRead st inum fbn := rfl

theorem bfsFindOFTE_lt {st : FS} {inum o : Nat} (h : bfsFindOFTE st inum = .ok o) :
    o < st.oft.length := by
  unfold bfsFindOFTE at h
  cases hf : findOFTE st.oft inum with
  | none => simp [hf] at h
  | some i =>
    simp [hf] at h
    subst h
    exact findOFTE_lt _ _ _ hf

theorem oftCurs_setCurs {st : FS} {o : Nat} (c : Int) (h : o < st.oft.length) :
    oftCurs (setCurs st o c) o = c := by
  simp [oftCurs, getElem?_setCursAt_same, List.getElem?_eq_getElem h]

theorem ValidFd.setCurs {st : FS} {fd : Int} {inum ofte : Nat} (h : ValidFd st fd inum ofte)
    (o : Nat) (c : Int) : ValidFd (setCurs st o c) fd inum ofte := by
  simpa [ValidFd] using h

theorem bfsTell_of_valid {st : FS} {fd : Int} {inum ofte : Nat} (h : ValidFd st fd inum ofte) :
    bfsTell st fd = .ok (oftCurs st ofte) := by
  simp [bfsTell, h.1, h.2]

theorem fsSeek_set {st : FS} {fd : Int} {inum ofte : Nat} (h : ValidFd st fd inum ofte)
    {offset : Int} (ho : 0 ≤ offset) :
    fsSeek st fd offset SEEK_SET = .ok 0 (setCurs st ofte offset) := by
  simp [fsSeek, h.1, h.2, not_lt.mpr ho]

theorem fsSeek_cur {st : FS} {fd : Int} {inum ofte : Nat} (h : ValidFd st fd inum ofte)
    {offset : Int} (ho : 0 ≤ offset) :
    fsSeek st fd offset SEEK_CUR
      = .ok 0 (setCurs st ofte (i32add (oftCurs st ofte) offset)) := by
  simp [fsSeek, h.1, h.2, not_lt.mpr ho, SEEK_CUR, SEEK_SET]

theorem fsSeek_end {st : FS} {fd : Int} {inum ofte : Nat} (h : ValidFd st fd inum ofte)
    {offset : Int} (ho : 0 ≤ offset) :
    fsSeek st fd offset SEEK_END
      = .ok 0 (setCurs st ofte (i32add (bfsGetSize st inum) offset)) := by
  simp [fsSeek, fsSize, h.1, h.2, not_lt.mpr ho, SEEK_CUR, SEEK_SET, SEEK_END]

/-! ## The read path -/

theorem setCursAt_self : ∀ (l : List OFTE) (i : Nat),
    setCursAt l i (match l[i]? with | some e => e.curs | none => 0) = l
  | [], _ => by simp [setCursAt]
  | e :: es, 0 => by simp [setCursAt]
  | e :: es, i + 1 => by
    simp only [setCursAt, List.getElem?_cons_succ]
    rw [setCursAt_self es i]

theorem setCursAt_oftCurs (st : FS) (o : Nat) : setCursAt st.oft o (oftCurs st o) = st.oft := by
  unfold oftCurs
  exact setCursAt_self _ _

@[simp]
theorem setCurs_self (st : FS) (o : Nat) : setCurs st o (oftCurs st o) = st := by
  simp only [setCurs, oftCurs, setCursAt_self]

@[simp]
theorem fileByte_setCurs (B : Nat) (st : FS) (o : Nat) (c : Int) (inum p : Nat) :
    fileByte B (setCurs st o c) inum p = fileByte B st inum p := rfl

theorem div_mod_block {B : Nat} (q : Nat) {r : Nat} (hr : r < B) :
    (q * B + r) / B = q ∧ (q * B + r) % B = r := by
  have hB : 0 < B := by omega
  constructor
  · rw [Nat.mul_comm, Nat.mul_add_div hB, Nat.div_eq_of_lt hr]; rfl
  · rw [Nat.mul_comm, Nat.mul_add_mod, Nat.mod_eq_of_lt hr]

theorem bfsRead_of_mapped {st : FS} {inum g d : Nat}
    (h : (st.inodes inum).blockMap[g]? = some d) (hd : d < st.totalBlocks) :
    bfsRead st inum (g : Int) = .ok (st.disk d) ∧ bfsFbnToDbn st inum (g : Int) = .ok d := by
  have hg : ¬ ((g : Int) < 0) := by omega
  simp [bfsRead, bfsFbnToDbn, bioRead, h, hd, hg]

theorem fileByte_block {B : Nat} {st : FS} {inum g d : Nat} {r : Nat}
    (h : (st.inodes inum).blockMap[g]? = some d) (hr : r < B) :
    fileByte B st inum (g * B + r) = some (st.disk d r) := by
  obtain ⟨h1, h2⟩ := div_mod_block g hr
  simp [fileByte, h1, h2, h]

theorem readLoop_succ {B : Nat} {fd : Int} {inum ofte : Nat} {numb num_blocks : Int}
    {fuel : Nat} {bytes_read fbn : Int} {buf blk : Nat → Nat} {st : FS}
    (h : bytes_read < numb ∧ fbn < num_blocks) (hrd : bfsRead st inum fbn = .ok blk)
    (hv : ValidFd st fd inum ofte) (to_read : Int)
    (hto : (if i32sub numb bytes_read < B then i32sub numb bytes_read else B) = to_read)
    (h0 : 0 ≤ to_read) :
    readLoop B fd inum numb num_blocks (fuel + 1) bytes_read fbn buf st
      = readLoop B fd inum numb num_blocks fuel (i32add bytes_read to_read) (i32add fbn 1)
          (memcpy buf bytes_read.toNat blk 0 to_read.toNat)
          (setCurs st ofte (i32add (oftCurs st ofte) to_read)) := by
  rw [readLoop, if_pos h]
  simp only [hrd, hto]
  rw [fsSeek_cur hv h0]

theorem readLoop_spec (B : Nat) (hB : 0 < B) (fd : Int) (inum ofte : Nat) (N NB : Nat)
    (hN : (N : Int) ≤ 2147483647) (hNB : (NB : Int) ≤ 2147483647) :
    ∀ (fuel br f : Nat) (buf : Nat → Nat) (st : FS),
      ValidFd st fd inum ofte →
      NB ≤ f + fuel →
      br ≤ N →
      (∀ g, f ≤ g → g < NB →
        ∃ d, (st.inodes inum).blockMap[g]? = some d ∧ d < st.totalBlocks) →
      0 ≤ oftCurs st ofte →
      oftCurs st ofte + (((NB - f) * B : Nat) : Int) ≤ 2147483647 →
      ∃ (k : Nat) (buf1 : Nat → Nat),
        readLoop B fd inum N NB fuel br f buf st
          = .ok ((k : Int), buf1) (setCurs st ofte (oftCurs st ofte + ((k - br : Nat) : Int))) ∧
        br ≤ k ∧ k ≤ N ∧ k - br ≤ (NB - f) * B ∧ (k = N ∨ k - br = (NB - f) * B) ∧
        (∀ i, br ≤ i → i < k → fileByte B st inum (f * B + (i - br)) = some (buf1 i)) ∧
        (∀ i, ¬ (br ≤ i ∧ i < k) → buf1 i = buf i) := by
  intro fuel
  induction fuel with
  | zero =>
    intro br f buf st hv hfuel hbr hmap hc0 hcmax
    have hf : NB ≤ f := by omega
    refine ⟨br, buf, ?_, le_refl _, hbr, by simp, Or.inr (by simp [Nat.sub_eq_zero_of_le hf]), ?_, ?_⟩
    · have : ¬ ((br : Int) < N ∧ (f : Int) < NB) := by omega
      rw [readLoop, if_neg this]
      simp
    · intro i h1 h2; omega
    · intro i _; rfl
  | succ fuel ih =>
    intro br f buf st hv hfuel hbr hmap hc0 hcmax
    by_cases hcond : (br : Int) < N ∧ (f : Int) < NB
    · obtain ⟨hbrN, hfNB⟩ := hcond
      have hbrN' : br < N := by omega
      have hfNB' : f < NB := by omega
      obtain ⟨d, hd, hdt⟩ := hmap f (le_refl _) hfNB'
      obtain ⟨hrd, -⟩ := bfsRead_of_mapped hd hdt
      have hsub : i32sub (N : Int) (br : Int) = ((N - br : Nat) : Int) := by
        rw [i32sub, wrap32_eq (by omega) (by omega)]; omega
      obtain ⟨tr, hto, htB, htN, htc⟩ : ∃ tr : Nat,
          (if i32sub (N : Int) (br : Int) < (B : Int) then i32sub (N : Int) (br : Int)
            else (B : Int)) = (tr : Int) ∧ tr ≤ B ∧ tr ≤ N - br ∧ (tr = B ∨ tr = N - br) := by
        rw [hsub]
        by_cases hlt : ((N - br : Nat) : Int) < (B : Int)
        · exact ⟨N - br, by rw [if_pos hlt], by omega, le_refl _, Or.inr rfl⟩
        · exact ⟨B, by rw [if_neg hlt], le_refl _, by omega, Or.inl rfl⟩
      clear hsub
      have hroom : (NB - f) * B = B + (NB - (f + 1)) * B := by
        have : NB - f = (NB - (f + 1)) + 1 := by omega
        rw [this]; ring
      have hstep := @readLoop_succ _ _ _ _ _ _ fuel _ _ buf _ _ ⟨hbrN, hfNB⟩ hrd hv _ hto
        (by omega)
      have hadd : i32add (br : Int) (tr : Int) = ((br + tr : Nat) : Int) := by
        rw [i32add, wrap32_eq (by omega) (by omega)]; omega
      have hf1 : i32add (f : Int) 1 = ((f + 1 : Nat) : Int) := by
        rw [i32add, wrap32_eq (by omega) (by omega)]; omega
      have hcur : i32add (oftCurs st ofte) (tr : Int) = oftCurs st ofte + (tr : Int) := by
        rw [i32add, wrap32_eq (by omega) (by omega)]
      rw [hadd, hf1, hcur] at hstep
      simp only [Int.toNat_ofNat] at hstep
      clear hadd hf1 hcur hto
      have hlt := bfsFindOFTE_lt hv.2
      have hcs : oftCurs (setCurs st ofte (oftCurs st ofte + (tr : Int))) ofte
          = oftCurs st ofte + (tr : Int) := oftCurs_setCurs _ hlt
      have a1 : NB ≤ f + 1 + fuel := by omega
      have a2 : br + tr ≤ N := by omega
      have a3 : 0 ≤ oftCurs (setCurs st ofte (oftCurs st ofte + (tr : Int))) ofte := by
        rw [hcs]; omega
      have a4 : oftCurs (setCurs st ofte (oftCurs st ofte + (tr : Int))) ofte
          + (((NB - (f + 1)) * B : Nat) : Int) ≤ 2147483647 := by
        rw [hcs]; omega
      have a5 : ∀ g, f + 1 ≤ g → g < NB → ∃ d,
          ((setCurs st ofte (oftCurs st ofte + (tr : Int))).inodes inum).blockMap[g]? = some d ∧
          d < (setCurs st ofte (oftCurs st ofte + (tr : Int))).totalBlocks :=
        fun g hg1 hg2 => hmap g (by omega) hg2
      obtain ⟨k, buf1, hres, hk1, hk2, hk3, hk4, hcont, hframe⟩ :=
        ih (br + tr) (f + 1) (memcpy buf br (st.disk d) 0 tr)
          (setCurs st ofte (oftCurs st ofte + (tr : Int)))
          (hv.setCurs _ _) a1 a2 a5 a3 a4
      refine ⟨k, buf1, ?_, by omega, hk2, by omega, ?_, ?_, ?_⟩
      · rw [hstep, hres, hcs, setCurs_setCurs]
        congr 2
        omega
      · rcases hk4 with h | h
        · exact Or.inl h
        · rcases htc with htc | htc
          · right; omega
          · left; omega
      · intro i hi1 hi2
        by_cases hi3 : i < br + tr
        · rw [hframe i (by omega)]
          have hr : i - br < B := by omega
          rw [fileByte_block hd hr]
          simp only [memcpy]
          rw [if_pos (by omega)]
          simp
        · have htr : tr = B := by omega
          have := hcont i (by omega) hi2
          rw [fileByte_setCurs] at this
          rw [← this]
          congr 1
          rw [htr]
          have : i - br = B + (i - (br + B)) := by omega
          rw [this]
          ring
      · intro i hi
        rw [hframe i (by omega)]
        simp only [memcpy]
        rw [if_neg (by omega)]
    · refine ⟨br, buf, ?_, le_refl _, hbr, by omega, ?_, ?_, ?_⟩
      · rw [readLoop, if_neg hcond]
        simp
      · by_cases h1 : br < N
        · right
          have : NB ≤ f := by omega
          simp [Nat.sub_eq_zero_of_le this]
        · left; omega
      · intro i h1 h2; omega
      · intro i _; rfl

theorem i32div_cast (a b : Nat) (h : (a : Int) ≤ 2147483647) :
    i32div (a : Int) (b : Int) = ((a / b : Nat) : Int) := by
  have h1 : Int.tdiv (a : Int) (b : Int) = ((a / b : Nat) : Int) := by
    rw [Int.tdiv_eq_ediv (by omega) (by omega)]
    exact (Int.ofNat_ediv a b).symm
  have h2 : ((a / b : Nat) : Int) ≤ (a : Int) := by exact_mod_cast Nat.div_le_self a b
  have h3 : (0 : Int) ≤ ((a / b : Nat) : Int) := Int.ofNat_nonneg _
  rw [i32div, h1, wrap32_eq (by omega) (by omega)]

theorem i32mod_cast (a b : Nat) : i32mod (a : Int) (b : Int) = ((a % b : Nat) : Int) := by
  rw [i32mod, Int.tmod_eq_emod (by omega) (by omega)]
  exact (Int.ofNat_emod a b).symm

theorem blocksFor_cast (B s : Nat) : blocksFor B (s : Int) = (s + B - 1) / B := by
  simp [blocksFor]

theorem numBlocks_cast (B s : Nat) (hB : 0 < B) (h : (s : Int) + B ≤ 2147483647) :
    i32div (i32sub (i32add (s : Int) (B : Int)) 1) (B : Int) = ((blocksFor B (s : Int) : Nat) : Int) := by
  have h1 : i32sub (i32add (s : Int) (B : Int)) 1 = ((s + B - 1 : Nat) : Int) := by
    rw [i32add, wrap32_eq (by omega) (by omega), i32sub, wrap32_eq (by omega) (by omega)]
    omega
  rw [h1, i32div_cast _ _ (by omega), blocksFor_cast]

theorem blocksFor_bounds (B s : Nat) (hB : 0 < B) :
    s ≤ (blocksFor B (s : Int)) * B ∧ (blocksFor B (s : Int)) * B ≤ s + B - 1 := by
  rw [blocksFor_cast]
  have h1 := Nat.div_add_mod (s + B - 1) B
  have h2 := Nat.mod_lt (s + B - 1) hB
  rw [Nat.mul_comm] at h1
  constructor <;> omega

theorem wrap32_high {x : Int} (h1 : 2147483647 < x) (h2 : x ≤ 4294967295 + 2147483647) :
    wrap32 x = x - 4294967296 := by
  unfold wrap32; omega

theorem fsRead_spec (B : Nat) (hB : 0 < B) (st : FS) (fd n : Int) (buf : Nat → Nat)
    (inum ofte c s : Nat) (hv : ValidFd st fd inum ofte)
    (hc : oftCurs st ofte = (c : Int)) (hs : bfsGetSize st inum = (s : Int))
    (hcs : c < s) (hn0 : 0 ≤ n) (hn1 : n ≤ 2147483647)
    (hhead : (s : Int) + B ≤ 2147483647) (hmap : Mapped st inum (blocksFor B (s : Int))) :
    ∃ (k : Nat) (buf1 : Nat → Nat),
      fsRead B st fd n buf = .ok ((k : Int), buf1) (setCurs st ofte ((c : Int) + k)) ∧
      (k : Int) ≤ n ∧
      ((c : Int) + n ≤ s → (k : Int) = n) ∧
      ((s : Int) < c + n → (c : Int) + n ≤ 2147483647 → k = s - c) ∧
      c + k ≤ blocksFor B (s : Int) * B ∧
      (∀ i, i < k → fileByte B st inum (c + i) = some (buf1 i)) ∧
      (∀ i, k ≤ i → buf1 i = buf i) := by
  obtain ⟨hb1, hb2⟩ := blocksFor_bounds B s hB
  have hnb := numBlocks_cast B s hB hhead
  generalize blocksFor B (s : Int) = NB at hb1 hb2 hnb hmap ⊢
  -- the clamped count
  obtain ⟨N, hN, hNn, hNa, hNb, hNc⟩ : ∃ N : Nat,
      (if i32add (c : Int) n > (s : Int) then i32sub (s : Int) (c : Int) else n) = (N : Int) ∧
      (N : Int) ≤ n ∧ ((c : Int) + n ≤ s → (N : Int) = n) ∧
      ((s : Int) < c + n → (c : Int) + n ≤ 2147483647 → N = s - c) ∧
      ((c : Int) + n ≤ 2147483647 → c + N ≤ s) := by
    by_cases h1 : (c : Int) + n ≤ 2147483647
    · rw [i32add, wrap32_eq (by omega) h1]
      by_cases h2 : (c : Int) + n > s
      · refine ⟨s - c, ?_, by omega, by omega, by omega, by omega⟩
        rw [if_pos h2, i32sub, wrap32_eq (by omega) (by omega)]; omega
      · refine ⟨n.toNat, ?_, by omega, by omega, by omega, by omega⟩
        rw [if_neg h2]; omega
    · rw [i32add, wrap32_high (by omega) (by omega)]
      have h2 : ¬ ((c : Int) + n - 4294967296 > s) := by omega
      refine ⟨n.toNat, ?_, by omega, by omega, by omega, by omega⟩
      rw [if_neg h2]; omega
  have hNmax : (N : Int) ≤ 2147483647 := by omega
  clear hn1
  suffices hcore : ∃ (k : Nat) (buf1 : Nat → Nat),
      fsRead B st fd n buf = .ok ((k : Int), buf1) (setCurs st ofte ((c : Int) + k)) ∧
      k ≤ N ∧ (c + N ≤ s → k = N) ∧ c + k ≤ NB * B ∧
      (∀ i, i < k → fileByte B st inum (c + i) = some (buf1 i)) ∧
      (∀ i, k ≤ i → buf1 i = buf i) by
    obtain ⟨k, buf1, h1, h2, h3, h4, h5, h6⟩ := hcore
    refine ⟨k, buf1, h1, by omega, ?_, ?_, h4, h5, h6⟩
    · intro h
      have e1 := hNa h
      have e2 := h3 (by omega)
      omega
    · intro h h'
      have e1 := hNb h h'
      have e2 := h3 (hNc h')
      omega
  clear hNa hNb hNc hNn hn0
  have hnotge : ¬ ((c : Int) ≥ (s : Int)) := by omega
  -- block arithmetic
  have hdm := Nat.div_add_mod c B
  rw [Nat.mul_comm] at hdm
  have hrB := Nat.mod_lt c hB
  have hb3 : NB * B + 1 ≤ s + B := by omega
  clear hb2
  have hqNB : c / B < NB := by
    apply Nat.lt_of_mul_lt_mul_right (a := B)
    omega
  have hNBmax : (NB : Int) ≤ 2147483647 := by
    have : NB ≤ NB * B := Nat.le_mul_of_pos_right NB hB
    omega
  simp only [fsRead, hv.1, bfsTell_of_valid hv, hc, hs, if_neg hnotge, hN, hnb,
    i32div_cast c B (by omega), i32mod_cast]
  clear hN hnb
  generalize c / B = q at *
  generalize c % B = r at *
  have hq1 : (q + 1) * B = q * B + B := by ring
  have hq2 : (q + 1) * B ≤ NB * B := Nat.mul_le_mul_right B hqNB
  have hlt := bfsFindOFTE_lt hv.2
  by_cases hr : r = 0
  · have hr0 : ¬ ((r : Int) ≠ 0) := by omega
    rw [if_neg hr0]
    have hfuel : ((NB : Int) - (q : Int)).toNat = NB - q := by omega
    rw [hfuel]
    have hroom : q * B + (NB - q) * B = NB * B := by
      have e : q + (NB - q) = NB := by omega
      rw [← Nat.add_mul, e]
    obtain ⟨k, buf1, hres, hk1, hk2, hk3, hk4, hcont, hframe⟩ :=
      readLoop_spec B hB fd inum ofte N NB hNmax hNBmax (NB - q) 0 q buf st hv (by omega)
        (by omega) (fun g _ hg => hmap g hg) (by omega) (by rw [hc]; omega)
    simp only [Nat.cast_zero, Nat.sub_zero, hc] at hres hcont hk3 hk4
    refine ⟨k, buf1, hres, by omega, ?_, by omega, ?_, ?_⟩
    · intro h; rcases hk4 with h4 | h4 <;> omega
    · intro i hi
      have := hcont i (Nat.zero_le _) hi
      have e : q * B + i = c + i := by omega
      rw [e] at this
      exact this
    · intro i hi
      exact hframe i (by omega)
  · have hr0 : (r : Int) ≠ 0 := by omega
    rw [if_pos hr0]
    have hrpos : 0 < r := Nat.pos_of_ne_zero hr
    clear hr hr0
    obtain ⟨d, hd, hdt⟩ := hmap q hqNB
    rw [(bfsRead_of_mapped hd hdt).1]
    simp only []
    have hsub : i32sub (B : Int) (r : Int) = ((B - r : Nat) : Int) := by
      rw [i32sub, wrap32_eq (by omega) (by omega)]; omega
    obtain ⟨tr, hto, htc⟩ : ∃ tr : Nat,
        (if (N : Int) < i32sub (B : Int) (r : Int) then (N : Int) else i32sub (B : Int) (r : Int))
          = (tr : Int) ∧ ((tr = N ∧ N + r < B) ∨ (tr + r = B ∧ B ≤ N + r)) := by
      rw [hsub]
      by_cases h : (N : Int) < ((B - r : Nat) : Int)
      · exact ⟨N, by rw [if_pos h], Or.inl ⟨rfl, by omega⟩⟩
      · exact ⟨B - r, by rw [if_neg h], Or.inr ⟨by omega, by omega⟩⟩
    clear hsub
    rw [hto]
    clear hto
    have hz : i32add 0 (tr : Int) = (tr : Int) := by
      rw [i32add, wrap32_eq (by omega) (by omega)]; omega
    have hcur : i32add (oftCurs st ofte) (tr : Int) = (c : Int) + (tr : Int) := by
      rw [i32add, hc, wrap32_eq (by omega) (by omega)]
    have hseek := @fsSeek_cur _ _ _ _ hv (tr : Int) (by omega)
    rw [hz, hseek, hcur]
    simp only [Int.toNat_ofNat]
    clear hz hcur hseek
    by_cases htrN : tr = N
    · have : (tr : Int) = (N : Int) := by omega
      rw [if_pos this]
      clear this
      refine ⟨tr, _, rfl, by omega, fun _ => htrN, by omega, ?_, ?_⟩
      · intro i hi
        have hri : r + i < B := by omega
        have h1 := fileByte_block (B := B) hd hri
        have h2 : q * B + (r + i) = c + i := by omega
        rw [h2] at h1
        rw [h1]
        simp only [memcpy]
        rw [if_pos (by omega)]
        simp
      · intro i hi
        simp only [memcpy]
        rw [if_neg (by omega)]
    · have : ¬ ((tr : Int) = (N : Int)) := by omega
      rw [if_neg this]
      have htr : tr + r = B := by omega
      have htrN2 : tr < N := by omega
      clear htc this htrN
      have hf1 : i32add (q : Int) 1 = ((q + 1 : Nat) : Int) := by
        rw [i32add, wrap32_eq (by omega) (by omega)]; omega
      rw [hf1]
      clear hf1
      have hfuel : ((NB : Int) - ((q + 1 : Nat) : Int)).toNat = NB - (q + 1) := by
        rw [← Int.ofNat_sub (Nat.succ_le_of_lt hqNB)]
        exact Int.toNat_ofNat _
      rw [hfuel]
      clear hfuel
      have hroom : (q + 1) * B + (NB - (q + 1)) * B = NB * B := by
        have e : (q + 1) + (NB - (q + 1)) = NB := by omega
        rw [← Nat.add_mul, e]
      have hcs : oftCurs (setCurs st ofte ((c : Int) + (tr : Int))) ofte = (c : Int) + (tr : Int) :=
        oftCurs_setCurs _ hlt
      obtain ⟨k, buf1, hres, hk1, hk2, hk3, hk4, hcont, hframe⟩ :=
        readLoop_spec B hB fd inum ofte N NB hNmax hNBmax (NB - (q + 1)) tr (q + 1)
          (memcpy buf 0 (st.disk d) r tr) (setCurs st ofte ((c : Int) + (tr : Int)))
          (hv.setCurs _ _) (by omega) (by omega) (fun g _ hg => hmap g hg)
          (by rw [hcs]; omega) (by rw [hcs]; omega)
      rw [hcs, setCurs_setCurs] at hres
      refine ⟨k, buf1, ?_, by omega, ?_, by omega, ?_, ?_⟩
      · have e : (c : Int) + (tr : Int) + ((k - tr : Nat) : Int) = (c : Int) + (k : Int) := by omega
        rw [hres, e]
      · intro h; rcases hk4 with h4 | h4 <;> omega
      · intro i hi
        by_cases hi2 : i < tr
        · rw [hframe i (by omega)]
          have hri : r + i < B := by omega
          have h1 := fileByte_block (B := B) hd hri
          have h2 : q * B + (r + i) = c + i := by omega
          rw [h2] at h1
          rw [h1]
          simp only [memcpy]
          rw [if_pos (by omega)]
          simp
        · have := hcont i (by omega) hi
          rw [fileByte_setCurs] at this
          have e : (q + 1) * B + (i - tr) = c + i := by omega
          rw [e] at this
          exact this
      · intro i hi
        rw [hframe i (by omega)]
        simp only [memcpy]
        rw [if_neg (by omega)]

/-! ## The write path -/

theorem nodup_getElem?_inj {l : List Nat} (h : l.Nodup) {g g1 d : Nat}
    (h1 : l[g]? = some d) (h2 : l[g1]? = some d) : g = g1 := by
  obtain ⟨hg, e1⟩ := List.getElem?_eq_some.1 h1
  obtain ⟨hg1, e2⟩ := List.getElem?_eq_some.1 h2
  exact (@List.Nodup.getElem_inj_iff _ _ h _ hg _ hg1).1 (e1.trans e2.symm)

@[simp]
theorem diskPut_inodes (st : FS) (d : Nat) (blk : Nat → Nat) :
    (diskPut st d blk).inodes = st.inodes := rfl
@[simp]
theorem diskPut_free (st : FS) (d : Nat) (blk : Nat → Nat) :
    (diskPut st d blk).free = st.free := rfl
@[simp]
theorem diskPut_fds (st : FS) (d : Nat) (blk : Nat → Nat) :
    (diskPut st d blk).fds = st.fds := rfl
@[simp]
theorem diskPut_oft (st : FS) (d : Nat) (blk : Nat → Nat) :
    (diskPut st d blk).oft = st.oft := rfl
@[simp]
theorem diskPut_totalBlocks (st : FS) (d : Nat) (blk : Nat → Nat) :
    (diskPut st d blk).totalBlocks = st.totalBlocks := rfl
@[simp]
theorem diskPut_disk (st : FS) (d : Nat) (blk : Nat → Nat) :
    (diskPut st d blk).disk = Function.update st.disk d blk := rfl
@[simp]
theorem oftCurs_diskPut (st : FS) (d : Nat) (blk : Nat → Nat) (o : Nat) :
    oftCurs (diskPut st d blk) o = oftCurs st o := rfl

theorem ValidFd.diskPut {st : FS} {fd : Int} {inum ofte : Nat} (h : ValidFd st fd inum ofte)
    (d : Nat) (blk : Nat → Nat) : ValidFd (diskPut st d blk) fd inum ofte := h

theorem bioWrite_of_lt {st : FS} {d : Nat} (blk : Nat → Nat) (h : d < st.totalBlocks) :
    bioWrite st d blk = .ok () (diskPut st d blk) := by
  simp [bioWrite, h, diskPut]

theorem writeLoop_succ {B : Nat} {fd : Int} {inum ofte : Nat} {numb : Int} {buf : Nat → Nat}
    {fuel : Nat} {bytes_written : Int} {bp g d : Nat} {st : FS}
    (h : bytes_written < numb) (hd : (st.inodes inum).blockMap[g]? = some d)
    (hdt : d < st.totalBlocks) (hv : ValidFd st fd inum ofte) (to_write : Int)
    (hto : (if i32sub numb bytes_written < B then i32sub numb bytes_written else B) = to_write)
    (h0 : 0 ≤ to_write) :
    writeLoop B fd inum numb buf (fuel + 1) bytes_written bp (g : Int) st
      = writeLoop B fd inum numb buf fuel (i32add bytes_written to_write) (bp + to_write.toNat)
          (i32add (g : Int) 1)
          (setCurs (diskPut st d (memcpy (st.disk d) 0 buf bp to_write.toNat)) ofte
            (i32add (oftCurs st ofte) to_write)) := by
  rw [writeLoop, if_pos h]
  simp only [(bfsRead_of_mapped hd hdt).1, (bfsRead_of_mapped hd hdt).2, hto]
  rw [bioWrite_of_lt _ hdt]
  simp only []
  rw [fsSeek_cur (hv.diskPut _ _) h0]
  rfl

theorem writeLoop_spec (B : Nat) (hB : 0 < B) (fd : Int) (inum ofte N M : Nat)
    (hN : (N : Int) ≤ 2147483647) (buf : Nat → Nat) :
    ∀ (fuel bw rem bp f : Nat) (st : FS),
      ValidFd st fd inum ofte → bw + rem = N → rem ≤ fuel →
      (st.inodes inum).blockMap.Nodup → Mapped st inum M → f * B + rem ≤ M * B →
      (f : Int) + rem ≤ 2147483647 →
      0 ≤ oftCurs st ofte → oftCurs st ofte + (rem : Int) ≤ 2147483647 →
      ∃ st1, writeLoop B fd inum N buf fuel bw bp f st = .ok 0 st1 ∧
        st1.inodes = st.inodes ∧ st1.free = st.free ∧ st1.fds = st.fds ∧
        st1.totalBlocks = st.totalBlocks ∧
        st1.oft = setCursAt st.oft ofte (oftCurs st ofte + (rem : Int)) ∧
        (∀ g d j, (st.inodes inum).blockMap[g]? = some d → j < B →
          st1.disk d j = if f * B ≤ g * B + j ∧ g * B + j < f * B + rem
            then buf (bp + (g * B + j - f * B)) else st.disk d j) ∧
        (∀ d, d ∉ (st.inodes inum).blockMap → st1.disk d = st.disk d) := by
  intro fuel
  induction fuel with
  | zero =>
    intro bw rem bp f st hv hbw hfuel hnd hmap hcap hfmax hc0 hcmax
    have hrem : rem = 0 := by omega
    subst hrem
    have : ¬ ((bw : Int) < (N : Int)) := by omega
    refine ⟨st, ?_, rfl, rfl, rfl, rfl, ?_, ?_, fun _ _ => rfl⟩
    · rw [writeLoop, if_neg this]
    · rw [Nat.cast_zero, add_zero, setCursAt_oftCurs]
    · intro g d j _ _
      rw [if_neg (by omega)]
  | succ fuel ih =>
    intro bw rem bp f st hv hbw hfuel hnd hmap hcap hfmax hc0 hcmax
    by_cases hrem : rem = 0
    · subst hrem
      have : ¬ ((bw : Int) < (N : Int)) := by omega
      refine ⟨st, ?_, rfl, rfl, rfl, rfl, ?_, ?_, fun _ _ => rfl⟩
      · rw [writeLoop, if_neg this]
      · rw [Nat.cast_zero, add_zero, setCursAt_oftCurs]
      · intro g d j _ _
        rw [if_neg (by omega)]
    · have hrpos : 0 < rem := Nat.pos_of_ne_zero hrem
      clear hrem
      have hbwN : (bw : Int) < (N : Int) := by omega
      have hfM : f < M := by
        apply Nat.lt_of_mul_lt_mul_right (a := B)
        omega
      have hf1 : (f + 1) * B = f * B + B := by ring
      have hf2 : (f + 1) * B ≤ M * B := Nat.mul_le_mul_right B hfM
      obtain ⟨d, hd, hdt⟩ := hmap f hfM
      have hsub : i32sub (N : Int) (bw : Int) = (rem : Int) := by
        rw [i32sub, wrap32_eq (by omega) (by omega)]; omega
      obtain ⟨tr, hto, htB, htpos, htc⟩ : ∃ tr : Nat,
          (if i32sub (N : Int) (bw : Int) < (B : Int) then i32sub (N : Int) (bw : Int)
            else (B : Int)) = (tr : Int) ∧ tr ≤ B ∧ 0 < tr ∧
            ((tr = rem ∧ rem < B) ∨ (tr = B ∧ B ≤ rem)) := by
        rw [hsub]
        by_cases hlt : (rem : Int) < (B : Int)
        · exact ⟨rem, by rw [if_pos hlt], by omega, hrpos, Or.inl ⟨rfl, by omega⟩⟩
        · exact ⟨B, by rw [if_neg hlt], le_refl _, hB, Or.inr ⟨rfl, by omega⟩⟩
      clear hsub
      obtain ⟨rem1, hrem1⟩ : ∃ rem1, tr + rem1 = rem := ⟨rem - tr, by omega⟩
      have hstep := @writeLoop_succ _ _ _ _ _ buf fuel _ bp _ _ _ hbwN hd hdt hv _ hto
        (by omega)
      clear hto
      have hadd : i32add (bw : Int) (tr : Int) = ((bw + tr : Nat) : Int) := by
        rw [i32add, wrap32_eq (by omega) (by omega)]; omega
      have hg1 : i32add (f : Int) 1 = ((f + 1 : Nat) : Int) := by
        rw [i32add, wrap32_eq (by omega) (by omega)]; omega
      have hcur : i32add (oftCurs st ofte) (tr : Int) = oftCurs st ofte + (tr : Int) := by
        rw [i32add, wrap32_eq (by omega) (by omega)]
      rw [hadd, hg1, hcur] at hstep
      simp only [Int.toNat_ofNat] at hstep
      clear hadd hg1 hcur
      have hlt := bfsFindOFTE_lt hv.2
      have hcs : oftCurs (setCurs (diskPut st d (memcpy (st.disk d) 0 buf bp tr)) ofte
          (oftCurs st ofte + (tr : Int))) ofte = oftCurs st ofte + (tr : Int) :=
        oftCurs_setCurs _ hlt
      have a1 : (f + 1) * B + rem1 ≤ M * B := by
        rcases htc with ⟨h1, h2⟩ | ⟨h1, h2⟩ <;> omega
      obtain ⟨st1, hres, hi1, hi2, hi3, hi4, hi5, hi6, hi7⟩ :=
        ih (bw + tr) rem1 (bp + tr) (f + 1)
          (setCurs (diskPut st d (memcpy (st.disk d) 0 buf bp tr)) ofte
            (oftCurs st ofte + (tr : Int)))
          ((hv.diskPut _ _).setCurs _ _) (by omega) (by omega) hnd hmap a1 (by omega)
          (by rw [hcs]; omega) (by rw [hcs]; omega)
      rw [hcs] at hi5
      refine ⟨st1, by rw [hstep, hres], hi1, hi2, hi3, hi4, ?_, ?_, ?_⟩
      · rw [hi5]
        simp only [setCurs_oft, diskPut_oft, setCursAt_setCursAt]
        have e : oftCurs st ofte + (tr : Int) + (rem1 : Int) = oftCurs st ofte + (rem : Int) := by
          omega
        rw [e]
      · intro g d1 j hg hj
        rw [hi6 g d1 j hg hj]
        simp only [setCurs_disk, diskPut_disk]
        by_cases hgf : g = f
        · subst hgf
          have hdd : d1 = d := Option.some.inj (hg.symm.trans hd)
          subst hdd
          rw [if_neg (by omega), Function.update_same]
          simp only [memcpy]
          by_cases hjt : j < tr
          · rw [if_pos (by omega), if_pos (by omega)]
            have e : bp + (j - 0) = bp + (g * B + j - g * B) := by omega
            rw [e]
          · rw [if_neg (by omega), if_neg (by omega)]
        · have hne : d1 ≠ d := by
            intro h; subst h
            exact hgf (nodup_getElem?_inj hnd hg hd)
          rw [Function.update_noteq hne]
          rcases Nat.lt_or_gt_of_ne hgf with hlt1 | hgt1
          · have h3 : (g + 1) * B ≤ f * B := Nat.mul_le_mul_right B hlt1
            have h4 : (g + 1) * B = g * B + B := by ring
            rw [if_neg (by omega), if_neg (by omega)]
          · have h3 : (f + 1) * B ≤ g * B := Nat.mul_le_mul_right B hgt1
            by_cases hc2 : g * B + j < f * B + rem
            · rw [if_pos (by omega), if_pos (by omega)]
              have e : bp + tr + (g * B + j - (f + 1) * B) = bp + (g * B + j - f * B) := by omega
              rw [e]
            · rw [if_neg (by omega), if_neg (by omega)]
      · intro d1 hd1
        rw [hi7 d1 hd1]
        have hne : d1 ≠ d := by
          intro h; subst h
          exact hd1 (List.getElem?_mem hd)
        simp [Function.update_noteq hne]

/-! ## Extension of the block map -/

theorem extendLoop_noop (inum : Nat) : ∀ (k f : Nat) (st : FS),
    (0 < k → f + k ≤ (st.inodes inum).blockMap.length) →
    extendLoop inum k f st = .ok () st := by
  intro k
  induction k with
  | zero =>
    intro f st _
    rfl
  | succ k ih =>
    intro f st h
    have h0 := h (Nat.succ_pos k)
    have h1 : f < (st.inodes inum).blockMap.length := by omega
    rw [extendLoop, if_pos h1]
    exact ih (f + 1) st (fun _ => by omega)

theorem bfsExtend_noop (B : Nat) (st : FS) (inum : Nat) (fromFbn newSize : Int)
    (h : blocksFor B newSize ≤ (st.inodes inum).blockMap.length) :
    bfsExtend B st inum fromFbn newSize = .ok () st := by
  unfold bfsExtend
  apply extendLoop_noop
  intro hk
  omega

theorem blocksFor_le_of_le_mul {B n M : Nat} (hB : 0 < B) (h : n ≤ M * B) :
    blocksFor B (n : Int) ≤ M := by
  rw [blocksFor_cast]
  have h1 : (M + 1) * B = M * B + B := by ring
  have h2 : (n + B - 1) / B < M + 1 := by
    rw [Nat.div_lt_iff_lt_mul hB]
    omega
  omega

theorem Mapped.le_length {st : FS} {inum M : Nat} (h : Mapped st inum M) :
    M ≤ (st.inodes inum).blockMap.length := by
  by_contra hlt
  obtain ⟨d, hd, -⟩ := h (st.inodes inum).blockMap.length (by omega)
  rw [List.getElem?_eq_none (le_refl _)] at hd
  cases hd

@[simp]
theorem extendBy_disk (st : FS) (inum m : Nat) : (extendBy st inum m).disk = st.disk := rfl
@[simp]
theorem extendBy_oft (st : FS) (inum m : Nat) : (extendBy st inum m).oft = st.oft := rfl
@[simp]
theorem extendBy_fds (st : FS) (inum m : Nat) : (extendBy st inum m).fds = st.fds := rfl
@[simp]
theorem extendBy_dir (st : FS) (inum m : Nat) : (extendBy st inum m).dir = st.dir := rfl
@[simp]
theorem extendBy_totalBlocks (st : FS) (inum m : Nat) :
    (extendBy st inum m).totalBlocks = st.totalBlocks := rfl
theorem fsWrite_spec (B : Nat) (hB : 0 < B) (st : FS) (fd : Int) (N : Nat) (buf : Nat → Nat)
    (inum ofte c s M : Nat) (hv : ValidFd st fd inum ofte)
    (hc : oftCurs st ofte = (c : Int)) (hs : bfsGetSize st inum = (s : Int))
    (hcN : (c : Int) + N ≤ 2147483647) (hhead : (s : Int) + B ≤ 2147483647)
    (hnd : (st.inodes inum).blockMap.Nodup) (hmap : Mapped st inum M)
    (hcap : c + N ≤ M * B) :
    ∃ st1, fsWrite B st fd N buf = .ok 0 st1 ∧
      st1.fds = st.fds ∧ st1.free = st.free ∧ st1.totalBlocks = st.totalBlocks ∧
      st1.oft = setCursAt st.oft ofte ((c : Int) + N) ∧
      (st1.inodes inum).blockMap = (st.inodes inum).blockMap ∧
      (st1.inodes inum).size = (if s < c + N then ((c + N : Nat) : Int) else s) ∧
      (∀ i, i ≠ inum → st1.inodes i = st.inodes i) ∧
      (∀ g d j, (st.inodes inum).blockMap[g]? = some d → j < B →
        st1.disk d j = if c ≤ g * B + j ∧ g * B + j < c + N
          then buf (g * B + j - c) else st.disk d j) ∧
      (∀ d, d ∉ (st.inodes inum).blockMap → st1.disk d = st.disk d) := by
  have hnb := numBlocks_cast B s hB hhead
  have hadd : i32add (c : Int) (N : Int) = ((c + N : Nat) : Int) := by
    rw [i32add, wrap32_eq (by omega) (by omega)]; omega
  unfold fsWrite
  rw [hv.1]
  dsimp only
  rw [bfsTell_of_valid hv]
  dsimp only
  rw [hc, hs, hnb, i32div_cast c B (by omega), i32mod_cast, fsWriteGrow, hadd,
    bfsExtend_noop B st inum _ _
      ((blocksFor_le_of_le_mul hB hcap).trans hmap.le_length)]
  clear hnb hadd
  dsimp only
  rw [← apply_ite (Res.ok ())]
  dsimp only
  obtain ⟨st0, hst0⟩ : ∃ st0, st0 = (if ((c + N : Nat) : Int) > (s : Int)
      then bfsSetSize st inum ((c + N : Nat) : Int) else st) := ⟨_, rfl⟩
  rw [← hst0, fsWriteData]
  have p1 : st0.fds = st.fds := by rw [hst0]; split <;> rfl
  have p2 : st0.free = st.free := by rw [hst0]; split <;> rfl
  have p3 : st0.totalBlocks = st.totalBlocks := by rw [hst0]; split <;> rfl
  have p4 : st0.oft = st.oft := by rw [hst0]; split <;> rfl
  have p5 : st0.disk = st.disk := by rw [hst0]; split <;> rfl
  have p6 : (st0.inodes inum).blockMap = (st.inodes inum).blockMap := by
    rw [hst0]; split
    · simp [bfsSetSize]
    · rfl
  have p7 : (st0.inodes inum).size = (if s < c + N then ((c + N : Nat) : Int) else s) := by
    rw [hst0]
    have hsz : (st.inodes inum).size = (s : Int) := hs
    by_cases h : s < c + N
    · have h1 : ((c + N : Nat) : Int) > (s : Int) := by omega
      rw [if_pos h, if_pos h1]
      simp [bfsSetSize]
    · have h1 : ¬ (((c + N : Nat) : Int) > (s : Int)) := by omega
      rw [if_neg h, if_neg h1, hsz]
  have p8 : ∀ i, i ≠ inum → st0.inodes i = st.inodes i := by
    intro i hi
    rw [hst0]; split
    · simp [bfsSetSize, Function.update_noteq hi]
    · rfl
  clear hst0
  generalize (if s < c + N then ((c + N : Nat) : Int) else (s : Int)) = sz at p7 ⊢
  have hv0 : ValidFd st0 fd inum ofte := by
    refine ⟨?_, ?_⟩
    · have := hv.1
      simpa [bfsFdToInum, p1] using this
    · have := hv.2
      simpa [bfsFindOFTE, p4] using this
  have hc0 : oftCurs st0 ofte = (c : Int) := by
    rw [← hc]; simp [oftCurs, p4]
  have hmap0 : Mapped st0 inum M := by
    intro g hg
    rw [p6, p3]
    exact hmap g hg
  have hnd0 : (st0.inodes inum).blockMap.Nodup := by rw [p6]; exact hnd
  have hN : (N : Int) ≤ 2147483647 := by omega
  have hdm := Nat.div_add_mod c B
  rw [Nat.mul_comm] at hdm
  have hrB := Nat.mod_lt c hB
  generalize c / B = q at *
  generalize c % B = r at *
  have hqq : q ≤ q * B := Nat.le_mul_of_pos_right q hB
  have hq1 : (q + 1) * B = q * B + B := by ring
  have hlt := bfsFindOFTE_lt hv0.2
  by_cases hr : r = 0
  · have hr0 : ¬ ((r : Int) ≠ 0) := by omega
    rw [if_neg hr0]
    clear hr0
    subst hr
    rw [Int.toNat_ofNat]
    obtain ⟨st1, hres, h1, h2, h3, h4, h5, h6, h7⟩ :=
      writeLoop_spec B hB fd inum ofte N M hN buf N 0 N 0 q st0 hv0 (by omega) (le_refl _)
        hnd0 hmap0 (by omega) (by omega) (by omega) (by omega)
    simp only [Nat.cast_zero] at hres
    refine ⟨st1, hres, by rw [h3, p1], by rw [h2, p2], by rw [h4, p3], ?_, by rw [h1, p6],
      by rw [h1, p7], fun i hi => by rw [h1, p8 i hi], ?_, ?_⟩
    · rw [h5, hc0, p4]
    · intro g d j hg hj
      rw [h6 g d j (by rw [p6]; exact hg) hj, p5]
      by_cases hcond : c ≤ g * B + j ∧ g * B + j < c + N
      · rw [if_pos hcond, if_pos (by omega)]
        have e : 0 + (g * B + j - q * B) = g * B + j - c := by omega
        rw [e]
      · rw [if_neg hcond, if_neg (by omega)]
    · intro d hd
      rw [h7 d (by rw [p6]; exact hd), p5]
  · have hr0 : (r : Int) ≠ 0 := by omega
    rw [if_pos hr0]
    have hrpos : 0 < r := Nat.pos_of_ne_zero hr
    clear hr hr0
    have hqM : q < M := by
      apply Nat.lt_of_mul_lt_mul_right (a := B)
      omega
    have hq2 : (q + 1) * B ≤ M * B := Nat.mul_le_mul_right B hqM
    obtain ⟨d, hd, hdt⟩ := hmap0 q hqM
    have hd' : (st.inodes inum).blockMap[q]? = some d := by rw [← p6]; exact hd
    rw [(bfsRead_of_mapped hd hdt).1]
    dsimp only
    rw [(bfsRead_of_mapped hd hdt).2]
    dsimp only
    rw [bioWrite_of_lt _ hdt]
    dsimp only
    have hsub : i32sub (B : Int) (r : Int) = ((B - r : Nat) : Int) := by
      rw [i32sub, wrap32_eq (by omega) (by omega)]; omega
    obtain ⟨tr, hto, htc⟩ : ∃ tr : Nat,
        (if (N : Int) < i32sub (B : Int) (r : Int) then (N : Int) else i32sub (B : Int) (r : Int))
          = (tr : Int) ∧ ((tr = N ∧ N + r < B) ∨ (tr + r = B ∧ B ≤ N + r)) := by
      rw [hsub]
      by_cases h : (N : Int) < ((B - r : Nat) : Int)
      · exact ⟨N, by rw [if_pos h], Or.inl ⟨rfl, by omega⟩⟩
      · exact ⟨B - r, by rw [if_neg h], Or.inr ⟨by omega, by omega⟩⟩
    clear hsub
    rw [hto]
    clear hto
    have hz : i32add 0 (tr : Int) = (tr : Int) := by
      rw [i32add, wrap32_eq (by omega) (by omega)]; omega
    have hcur : i32add (oftCurs st0 ofte) (tr : Int) = (c : Int) + (tr : Int) := by
      rw [i32add, hc0, wrap32_eq (by omega) (by omega)]
    have hseek := @fsSeek_cur _ _ _ _
      (hv0.diskPut d (memcpy (st0.disk d) (r : Int).toNat buf 0 (tr : Int).toNat))
      (tr : Int) (by omega)
    rw [hz, hseek, oftCurs_diskPut, hcur]
    dsimp only
    simp only [Int.toNat_ofNat]
    clear hz hcur hseek
    have hupd : ∀ (g d1 j : Nat), (st.inodes inum).blockMap[g]? = some d1 → g ≠ q →
        Function.update st0.disk d (memcpy (st0.disk d) r buf 0 tr) d1 j = st.disk d1 j := by
      intro g d1 j hg hgq
      have hne : d1 ≠ d := by
        intro h; subst h
        exact hgq (nodup_getElem?_inj hnd hg hd')
      rw [Function.update_noteq hne, p5]
    have hsame : ∀ j, Function.update st0.disk d (memcpy (st0.disk d) r buf 0 tr) d j
        = if r ≤ j ∧ j < r + tr then buf (0 + (j - r)) else st.disk d j := by
      intro j
      rw [Function.update_same, p5]
      rfl
    by_cases htrN : tr = N
    · have : (tr : Int) = (N : Int) := by omega
      rw [if_pos this]
      clear this
      refine ⟨_, rfl, p1, p2, p3, ?_, p6, p7, p8, ?_, ?_⟩
      · simp only [setCurs_oft, diskPut_oft, p4]
        rw [htrN]
      · intro g d1 j hg hj
        simp only [setCurs_disk, diskPut_disk]
        by_cases hgq : g = q
        · subst hgq
          have hdd : d1 = d := Option.some.inj (hg.symm.trans hd')
          subst hdd
          rw [hsame]
          by_cases hcond : c ≤ g * B + j ∧ g * B + j < c + N
          · rw [if_pos hcond, if_pos (by omega)]
            have e : 0 + (j - r) = g * B + j - c := by omega
            rw [e]
          · rw [if_neg hcond, if_neg (by omega)]
        · rw [hupd g d1 j hg hgq]
          rcases Nat.lt_or_gt_of_ne hgq with hlt1 | hgt1
          · have h3 : (g + 1) * B ≤ q * B := Nat.mul_le_mul_right B hlt1
            have h4 : (g + 1) * B = g * B + B := by ring
            rw [if_neg (by omega)]
          · have h3 : (q + 1) * B ≤ g * B := Nat.mul_le_mul_right B hgt1
            rw [if_neg (by omega)]
      · intro d1 hd1
        simp only [setCurs_disk, diskPut_disk]
        have hne : d1 ≠ d := by
          intro h; subst h
          exact hd1 (List.getElem?_mem hd')
        rw [Function.update_noteq hne, p5]
    · have : ¬ ((tr : Int) = (N : Int)) := by omega
      rw [if_neg this]
      have htr : tr + r = B := by omega
      have htrN2 : tr < N := by omega
      clear htc this htrN
      obtain ⟨rem1, hrem1⟩ : ∃ rem1, tr + rem1 = N := ⟨N - tr, by omega⟩
      have hf1 : i32add (q : Int) 1 = ((q + 1 : Nat) : Int) := by
        rw [i32add, wrap32_eq (by omega) (by omega)]; omega
      rw [hf1]
      clear hf1
      have hfuel : ((N : Int) - (tr : Int)).toNat = rem1 := by omega
      rw [hfuel]
      clear hfuel
      have hcs : oftCurs (setCurs (diskPut st0 d (memcpy (st0.disk d) r buf 0 tr)) ofte
          ((c : Int) + (tr : Int))) ofte = (c : Int) + (tr : Int) := oftCurs_setCurs _ hlt
      obtain ⟨st1, hres, h1, h2, h3, h4, h5, h6, h7⟩ :=
        writeLoop_spec B hB fd inum ofte N M hN buf rem1 tr rem1 tr (q + 1)
          (setCurs (diskPut st0 d (memcpy (st0.disk d) r buf 0 tr)) ofte ((c : Int) + (tr : Int)))
          ((hv0.diskPut _ _).setCurs _ _) hrem1 (le_refl _) hnd0 hmap0 (by omega) (by omega)
          (by rw [hcs]; omega) (by rw [hcs]; omega)
      rw [hcs] at h5
      simp only [setCurs_inodes, diskPut_inodes, setCurs_free, diskPut_free, setCurs_fds,
        diskPut_fds, setCurs_totalBlocks, diskPut_totalBlocks, setCurs_oft, diskPut_oft,
        setCurs_disk, diskPut_disk, setCursAt_setCursAt] at h1 h2 h3 h4 h5 h6 h7
      refine ⟨st1, hres, by rw [h3, p1], by rw [h2, p2], by rw [h4, p3], ?_, by rw [h1, p6],
        by rw [h1, p7], fun i hi => by rw [h1, p8 i hi], ?_, ?_⟩
      · rw [h5, p4]
        have e : (c : Int) + (tr : Int) + (rem1 : Int) = (c : Int) + (N : Int) := by omega
        rw [e]
      · intro g d1 j hg hj
        rw [h6 g d1 j (by rw [p6]; exact hg) hj]
        by_cases hgq : g = q
        · subst hgq
          have hdd : d1 = d := Option.some.inj (hg.symm.trans hd')
          subst hdd
          rw [if_neg (by omega), hsame]
          by_cases hcond : c ≤ g * B + j ∧ g * B + j < c + N
          · rw [if_pos hcond, if_pos (by omega)]
            have e : 0 + (j - r) = g * B + j - c := by omega
            rw [e]
          · rw [if_neg hcond, if_neg (by omega)]
        · rw [hupd g d1 j hg hgq]
          rcases Nat.lt_or_gt_of_ne hgq with hlt1 | hgt1
          · have h3 : (g + 1) * B ≤ q * B := Nat.mul_le_mul_right B hlt1
            have h4 : (g + 1) * B = g * B + B := by ring
            rw [if_neg (by omega), if_neg (by omega)]
          · have h3 : (q + 1) * B ≤ g * B := Nat.mul_le_mul_right B hgt1
            by_cases hcond : c ≤ g * B + j ∧ g * B + j < c + N
            · rw [if_pos hcond, if_pos (by omega)]
              have e : tr + (g * B + j - (q + 1) * B) = g * B + j - c := by omega
              rw [e]
            · rw [if_neg hcond, if_neg (by omega)]
      · intro d1 hd1
        rw [h7 d1 (by rw [p6]; exact hd1)]
        have hne : d1 ≠ d := by
          intro h; subst h
          exact hd1 (List.getElem?_mem hd')
        rw [Function.update_noteq hne, p5]

/-! ## Frame facts that hold for every outcome -/

theorem fsSeek_ok {st st1 : FS} {fd offset whence r : Int}
    (h : fsSeek st fd offset whence = .ok r st1) :
    r = 0 ∧ 0 ≤ offset ∧ ∃ inum ofte c1, ValidFd st fd inum ofte ∧ st1 = setCurs st ofte c1 := by
  unfold fsSeek at h
  split at h
  · cases h
  · rename_i hoff
    split at h
    · cases h
    · rename_i inum hi
      split at h
      · cases h
      · rename_i ofte ho
        have hv : ValidFd st fd inum ofte := ⟨hi, ho⟩
        split at h
        · cases h; exact ⟨rfl, not_lt.mp hoff, inum, ofte, _, hv, rfl⟩
        · split at h
          · cases h; exact ⟨rfl, not_lt.mp hoff, inum, ofte, _, hv, rfl⟩
          · split at h
            · simp only [fsSize, hi] at h
              cases h; exact ⟨rfl, not_lt.mp hoff, inum, ofte, _, hv, rfl⟩
            · cases h

theorem fsSeek_cur_any {st : FS} {fd : Int} {inum ofte : Nat} (h : ValidFd st fd inum ofte)
    (offset : Int) :
    fsSeek st fd offset SEEK_CUR
      = if offset < 0 then .fatal .EBADCURS st
        else .ok 0 (setCurs st ofte (i32add (oftCurs st ofte) offset)) := by
  by_cases ho : offset < 0
  · simp [fsSeek, ho]
  · rw [if_neg ho]
    exact fsSeek_cur h (not_lt.mp ho)

theorem validFd_of_tell {st : FS} {fd : Int} {inum : Nat} {c : Int}
    (hi : bfsFdToInum st fd = .ok inum) (ht : bfsTell st fd = .ok c) :
    ∃ ofte, ValidFd st fd inum ofte ∧ c = oftCurs st ofte := by
  unfold bfsTell at ht
  rw [hi] at ht
  dsimp only at ht
  split at ht
  · cases ht
  · rename_i ofte ho
    cases ht
    exact ⟨ofte, ⟨hi, ho⟩, rfl⟩

theorem fsSeek_fatal {st s : FS} {fd offset whence : Int} {e : Err}
    (h : fsSeek st fd offset whence = .fatal e s) : s = st := by
  unfold fsSeek at h
  split at h
  · cases h; rfl
  · split at h
    · cases h; rfl
    · rename_i inum hi
      split at h
      · cases h; rfl
      · split at h
        · cases h
        · split at h
          · cases h
          · split at h
            · simp only [fsSize, hi] at h
              cases h
            · cases h; rfl

theorem ValidFd.unique {st : FS} {fd : Int} {inum ofte inum1 ofte1 : Nat}
    (h : ValidFd st fd inum ofte) (h1 : ValidFd st fd inum1 ofte1) :
    inum1 = inum ∧ ofte1 = ofte := by
  have e1 : inum1 = inum := by
    have := h1.1.symm.trans h.1
    cases this; rfl
  subst e1
  have e2 := h1.2.symm.trans h.2
  cases e2
  exact ⟨rfl, rfl⟩

theorem fsSeek_state_of_valid {st : FS} {fd : Int} {inum ofte : Nat}
    (hv : ValidFd st fd inum ofte) (offset whence : Int) :
    ∃ c1, (fsSeek st fd offset whence).state = setCurs st ofte c1 := by
  cases h : fsSeek st fd offset whence with
  | fatal e s =>
    rw [fsSeek_fatal h]
    exact ⟨oftCurs st ofte, by rw [setCurs_self]; rfl⟩
  | ok r s =>
    obtain ⟨-, -, inum1, ofte1, c1, hv1, hs⟩ := fsSeek_ok h
    obtain ⟨-, e2⟩ := hv.unique hv1
    subst e2
    exact ⟨c1, hs⟩

theorem readLoop_state (B : Nat) (fd : Int) (inum inum0 ofte : Nat) (numb num_blocks : Int) :
    ∀ (fuel : Nat) (bytes_read fbn : Int) (buf : Nat → Nat) (st : FS),
      ValidFd st fd inum0 ofte →
      ∃ c1, (readLoop B fd inum numb num_blocks fuel bytes_read fbn buf st).state
        = setCurs st ofte c1 := by
  intro fuel
  induction fuel with
  | zero =>
    intro br fbn buf st _
    refine ⟨oftCurs st ofte, ?_⟩
    rw [readLoop, setCurs_self]
    split <;> rfl
  | succ fuel ih =>
    intro br fbn buf st hv
    rw [readLoop]
    split
    · cases hrd : bfsRead st inum fbn with
      | error e => exact ⟨oftCurs st ofte, by rw [setCurs_self]; rfl⟩
      | ok blk =>
        dsimp only
        split
        · rename_i e s heq
          rw [fsSeek_fatal heq]
          exact ⟨oftCurs st ofte, by rw [setCurs_self]; rfl⟩
        · rename_i r s heq
          obtain ⟨-, -, inum1, ofte1, c0, hv1, hs⟩ := fsSeek_ok heq
          obtain ⟨-, e2⟩ := hv.unique hv1
          subst e2 hs
          obtain ⟨c1, hc1⟩ := ih (i32add br _) (i32add fbn 1) (memcpy buf br.toNat blk 0 _) _
            (hv.setCurs ofte1 c0)
          exact ⟨c1, by rw [hc1, setCurs_setCurs]⟩
    · exact ⟨oftCurs st ofte, by rw [setCurs_self]; rfl⟩

theorem fsRead_state (B : Nat) (st : FS) (fd numb : Int) (buf : Nat → Nat) :
    ∃ o c1, (fsRead B st fd numb buf).state = setCurs st o c1 := by
  unfold fsRead
  cases hi : bfsFdToInum st fd with
  | error e => exact ⟨0, oftCurs st 0, by rw [setCurs_self]; rfl⟩
  | ok inum =>
    dsimp only
    cases ht : bfsTell st fd with
    | error e => exact ⟨0, oftCurs st 0, by rw [setCurs_self]; rfl⟩
    | ok c =>
      obtain ⟨ofte, hv, -⟩ := validFd_of_tell hi ht
      dsimp only
      refine ⟨ofte, ?_⟩
      by_cases h1 : c ≥ bfsGetSize st inum
      · rw [if_pos h1]
        exact ⟨oftCurs st ofte, by rw [setCurs_self]; rfl⟩
      · rw [if_neg h1]
        generalize (if i32add c numb > bfsGetSize st inum then i32sub (bfsGetSize st inum) c
          else numb) = nm
        by_cases h2 : i32mod c B ≠ 0
        · rw [if_pos h2]
          cases hrd : bfsRead st inum (i32div c B) with
          | error e => exact ⟨oftCurs st ofte, by rw [setCurs_self]; rfl⟩
          | ok blk =>
            dsimp only
            generalize (if nm < i32sub (B : Int) (i32mod c B) then nm
              else i32sub (B : Int) (i32mod c B)) = tr
            cases hsk : fsSeek st fd tr SEEK_CUR with
            | fatal e s =>
              rw [fsSeek_fatal hsk]
              exact ⟨oftCurs st ofte, by rw [setCurs_self]; rfl⟩
            | ok r s =>
              obtain ⟨-, -, inum1, ofte1, c0, hv1, hs⟩ := fsSeek_ok hsk
              obtain ⟨-, e2⟩ := hv.unique hv1
              subst e2 hs
              dsimp only
              by_cases h3 : i32add 0 tr = nm
              · rw [if_pos h3]
                exact ⟨_, rfl⟩
              · rw [if_neg h3]
                obtain ⟨c1, hc1⟩ := readLoop_state B fd inum inum ofte1 nm
                  (i32div (i32sub (i32add (bfsGetSize st inum) B) 1) B)
                  (i32div (i32sub (i32add (bfsGetSize st inum) B) 1) B
                    - i32add (i32div c B) 1).toNat
                  (i32add 0 tr) (i32add (i32div c B) 1)
                  (memcpy buf 0 blk (i32mod c B).toNat tr.toNat) _ (hv.setCurs ofte1 c0)
                exact ⟨c1, by rw [hc1, setCurs_setCurs]⟩
        · rw [if_neg h2]
          exact readLoop_state B fd inum inum ofte _ _ _ _ _ _ _ hv

theorem WriteFrame.refl (inum ofte : Nat) (st : FS) : WriteFrame inum ofte st st :=
  ⟨rfl, rfl, rfl, rfl, rfl, ⟨oftCurs st ofte, (setCursAt_oftCurs st ofte).symm⟩, fun _ _ => rfl⟩

theorem WriteFrame.trans {inum ofte : Nat} {st s1 s2 : FS} (h1 : WriteFrame inum ofte st s1)
    (h2 : WriteFrame inum ofte s1 s2) : WriteFrame inum ofte st s2 := by
  obtain ⟨a1, a2, a3, a4, a5, ⟨c1, a6⟩, a7⟩ := h1
  obtain ⟨b1, b2, b3, b4, b5, ⟨c2, b6⟩, b7⟩ := h2
  refine ⟨b1.trans a1, b2.trans a2, b3.trans a3, b4.trans a4, b5.trans a5, ⟨c2, ?_⟩, ?_⟩
  · rw [b6, a6, setCursAt_setCursAt]
  · intro d hd
    rw [b7 d (by rw [a1]; exact hd), a7 d hd]

theorem WriteFrame.of_setCurs (inum ofte : Nat) (st : FS) (c : Int) :
    WriteFrame inum ofte st (setCurs st ofte c) :=
  ⟨rfl, rfl, rfl, rfl, rfl, ⟨c, rfl⟩, fun _ _ => rfl⟩

theorem WriteFrame.of_diskPut {inum : Nat} (ofte : Nat) {st : FS} {d : Nat} (blk : Nat → Nat)
    (hd : d ∈ (st.inodes inum).blockMap) : WriteFrame inum ofte st (diskPut st d blk) := by
  refine ⟨rfl, rfl, rfl, rfl, rfl, ⟨oftCurs st ofte, (setCursAt_oftCurs st ofte).symm⟩, ?_⟩
  intro d1 hd1
  have hne : d1 ≠ d := by
    intro h; subst h; exact hd1 hd
  simp [Function.update_noteq hne]

theorem bfsFbnToDbn_mem {st : FS} {inum : Nat} {fbn : Int} {d : Nat}
    (h : bfsFbnToDbn st inum fbn = .ok d) : d ∈ (st.inodes inum).blockMap := by
  unfold bfsFbnToDbn at h
  split at h
  · cases h
  · split at h
    · rename_i dbn hdbn
      cases h
      exact List.getElem?_mem hdbn
    · cases h

theorem bioWrite_state (st : FS) (d : Nat) (blk : Nat → Nat) :
    (bioWrite st d blk).state = st ∨ (bioWrite st d blk).state = diskPut st d blk := by
  unfold bioWrite
  split
  · right; rfl
  · left; rfl

theorem blockWrite_frame {inum inum0 ofte : Nat} {st : FS} {fd : Int}
    (hv : ValidFd st fd inum0 ofte) (fbn : Int) (d : Nat) (blk : Nat → Nat) (tw : Int)
    (hd : bfsFbnToDbn st inum fbn = .ok d) :
    (∀ e s, bioWrite st d blk = .fatal e s → s = st) ∧
    (∀ u s, bioWrite st d blk = .ok u s →
      WriteFrame inum ofte st s ∧ ValidFd s fd inum0 ofte ∧
      (∀ e s2, fsSeek s fd tw SEEK_CUR = .fatal e s2 → WriteFrame inum ofte st s2) ∧
      (∀ r s2, fsSeek s fd tw SEEK_CUR = .ok r s2 →
        WriteFrame inum ofte st s2 ∧ ValidFd s2 fd inum0 ofte)) := by
  constructor
  · intro e s h
    unfold bioWrite at h
    split at h
    · cases h
    · cases h; rfl
  · intro u s h
    have hs : s = diskPut st d blk := by
      unfold bioWrite at h
      split at h
      · cases h; rfl
      · cases h
    subst hs
    have f1 : WriteFrame inum ofte st (diskPut st d blk) :=
      WriteFrame.of_diskPut ofte blk (bfsFbnToDbn_mem hd)
    refine ⟨f1, hv.diskPut _ _, ?_, ?_⟩
    · intro e s2 hsk
      rw [fsSeek_fatal hsk]; exact f1
    · intro r s2 hsk
      obtain ⟨-, -, inum1, ofte1, c1, hv1, hs2⟩ := fsSeek_ok hsk
      obtain ⟨-, e2⟩ := (hv.diskPut d blk).unique hv1
      subst e2 hs2
      exact ⟨f1.trans (WriteFrame.of_setCurs _ _ _ _), (hv.diskPut _ _).setCurs _ _⟩

theorem writeLoop_frame (B : Nat) (fd : Int) (inum inum0 ofte : Nat) (numb : Int)
    (buf : Nat → Nat) :
    ∀ (fuel : Nat) (bytes_written : Int) (bp : Nat) (fbn : Int) (st : FS),
      ValidFd st fd inum0 ofte →
      WriteFrame inum ofte st (writeLoop B fd inum numb buf fuel bytes_written bp fbn st).state := by
  intro fuel
  induction fuel with
  | zero =>
    intro bw bp fbn st _
    rw [writeLoop]
    split <;> exact WriteFrame.refl _ _ _
  | succ fuel ih =>
    intro bw bp fbn st hv
    rw [writeLoop]
    by_cases hcond : bw < numb
    · rw [if_pos hcond]
      cases hrd : bfsRead st inum fbn with
      | error e => exact WriteFrame.refl _ _ _
      | ok blk =>
        dsimp only
        cases hd : bfsFbnToDbn st inum fbn with
        | error e => exact WriteFrame.refl _ _ _
        | ok d =>
          dsimp only
          generalize (if i32sub numb bw < (B : Int) then i32sub numb bw else (B : Int)) = tw
          obtain ⟨k1, k2⟩ := @blockWrite_frame inum _ _ _ _ hv fbn d
            (memcpy blk 0 buf bp tw.toNat) tw hd
          cases hbw : bioWrite st d (memcpy blk 0 buf bp tw.toNat) with
          | fatal e s => rw [k1 e s hbw]; exact WriteFrame.refl _ _ _
          | ok u s =>
            obtain ⟨f1, hv1, k3, k4⟩ := k2 u s hbw
            dsimp only
            cases hsk : fsSeek s fd tw SEEK_CUR with
            | fatal e s2 => exact k3 e s2 hsk
            | ok r s2 =>
              obtain ⟨f2, hv2⟩ := k4 r s2 hsk
              dsimp only
              have f3 := ih (i32add bw tw) (bp + tw.toNat) (i32add fbn 1) s2 hv2
              have hin : s2.inodes = st.inodes := f2.1
              exact f2.trans f3
    · rw [if_neg hcond]
      exact WriteFrame.refl _ _ _

theorem extendLoop_frame (inum : Nat) :
    ∀ (k f : Nat) (st : FS),
      (extendLoop inum k f st).state.disk = st.disk ∧
      (extendLoop inum k f st).state.oft = st.oft ∧
      (extendLoop inum k f st).state.fds = st.fds ∧
      (extendLoop inum k f st).state.dir = st.dir ∧
      (extendLoop inum k f st).state.totalBlocks = st.totalBlocks ∧
      ((extendLoop inum k f st).state.inodes inum).size = (st.inodes inum).size ∧
      (∀ j, j ≠ inum → (extendLoop inum k f st).state.inodes j = st.inodes j) := by
  intro k
  induction k with
  | zero =>
    intro f st
    exact ⟨rfl, rfl, rfl, rfl, rfl, rfl, fun _ _ => rfl⟩
  | succ k ih =>
    intro f st
    rw [extendLoop]
    by_cases h1 : f < (st.inodes inum).blockMap.length
    · rw [if_pos h1]
      exact ih (f + 1) st
    · rw [if_neg h1]
      by_cases h2 : f = (st.inodes inum).blockMap.length
      · rw [if_pos h2]
        cases hfree : st.free with
        | nil => exact ⟨rfl, rfl, rfl, rfl, rfl, rfl, fun _ _ => rfl⟩
        | cons d rest =>
          dsimp only
          obtain ⟨a1, a2, a3, a4, a5, a6, a7⟩ := ih (f + 1)
            { st with
              free := rest
              inodes := Function.update st.inodes inum
                { st.inodes inum with blockMap := (st.inodes inum).blockMap ++ [d] } }
          refine ⟨a1, a2, a3, a4, a5, ?_, ?_⟩
          · rw [a6]; simp
          · intro j hj
            rw [a7 j hj]
            simp [Function.update_noteq hj]
      · rw [if_neg h2]
        exact ⟨rfl, rfl, rfl, rfl, rfl, rfl, fun _ _ => rfl⟩

theorem fsWriteGrow_frame (B : Nat) (st : FS) (inum : Nat) (curs numb size num_blocks : Int) :
    (fsWriteGrow B st inum curs numb size num_blocks).state.disk = st.disk ∧
    (fsWriteGrow B st inum curs numb size num_blocks).state.oft = st.oft ∧
    (fsWriteGrow B st inum curs numb size num_blocks).state.fds = st.fds ∧
    (fsWriteGrow B st inum curs numb size num_blocks).state.dir = st.dir ∧
    (fsWriteGrow B st inum curs numb size num_blocks).state.totalBlocks = st.totalBlocks ∧
    (∀ j, j ≠ inum →
      (fsWriteGrow B st inum curs numb size num_blocks).state.inodes j = st.inodes j) ∧
    (∀ u s, fsWriteGrow B st inum curs numb size num_blocks = .ok u s →
      (s.inodes inum).size
        = if i32add curs numb > size then i32add curs numb else (st.inodes inum).size) := by
  unfold fsWriteGrow
  obtain ⟨a1, a2, a3, a4, a5, a6, a7⟩ :=
    extendLoop_frame inum (blocksFor B (i32add curs numb) - num_blocks.toNat)
      num_blocks.toNat st
  by_cases hg : i32add curs numb > size
  · rw [if_pos hg]
    unfold bfsExtend
    cases hext : extendLoop inum (blocksFor B (i32add curs numb) - num_blocks.toNat)
        num_blocks.toNat st with
    | fatal e s =>
      rw [hext] at a1 a2 a3 a4 a5 a7
      exact ⟨a1, a2, a3, a4, a5, a7, fun u s1 h => by cases h⟩
    | ok u s =>
      rw [hext] at a1 a2 a3 a4 a5 a7
      refine ⟨a1, a2, a3, a4, a5, ?_, ?_⟩
      · intro j hj
        have := a7 j hj
        simp only [Res.state] at this ⊢
        simp [bfsSetSize, Function.update_noteq hj, this]
      · intro u1 s1 h
        cases h
        rw [if_pos hg]
        simp [bfsSetSize]
  · rw [if_neg hg]
    exact ⟨rfl, rfl, rfl, rfl, rfl, fun _ _ => rfl, fun u s h => by cases h; rw [if_neg hg]⟩

theorem fsWriteData_frame (B : Nat) (st : FS) (fd : Int) (inum ofte : Nat) (numb : Int)
    (buf : Nat → Nat) (fbn offset : Int) (hv : ValidFd st fd inum ofte) :
    WriteFrame inum ofte st (fsWriteData B st fd inum numb buf fbn offset).state := by
  unfold fsWriteData
  by_cases h2 : offset ≠ 0
  · rw [if_pos h2]
    cases hrd : bfsRead st inum fbn with
    | error e => exact WriteFrame.refl _ _ _
    | ok blk =>
      dsimp only
      cases hd : bfsFbnToDbn st inum fbn with
      | error e => exact WriteFrame.refl _ _ _
      | ok d =>
        dsimp only
        generalize (if numb < i32sub (B : Int) offset then numb else i32sub (B : Int) offset) = tw
        obtain ⟨k1, k2⟩ := @blockWrite_frame inum _ _ _ _ hv fbn d
          (memcpy blk offset.toNat buf 0 tw.toNat) tw hd
        cases hbw : bioWrite st d (memcpy blk offset.toNat buf 0 tw.toNat) with
        | fatal e s => rw [k1 e s hbw]; exact WriteFrame.refl _ _ _
        | ok u s =>
          obtain ⟨f1, hv1, k3, k4⟩ := k2 u s hbw
          dsimp only
          cases hsk : fsSeek s fd tw SEEK_CUR with
          | fatal e s2 => exact k3 e s2 hsk
          | ok r s2 =>
            obtain ⟨f2, hv2⟩ := k4 r s2 hsk
            dsimp only
            by_cases h3 : i32add 0 tw = numb
            · rw [if_pos h3]; exact f2
            · rw [if_neg h3]
              exact f2.trans (writeLoop_frame B fd inum inum ofte numb buf _ _ _ _ s2 hv2)
  · rw [if_neg h2]
    exact writeLoop_frame B fd inum inum ofte numb buf _ _ _ _ st hv

theorem writeLoop_ret (B : Nat) (fd : Int) (inum : Nat) (numb : Int) (buf : Nat → Nat) :
    ∀ (fuel : Nat) (bytes_written : Int) (bp : Nat) (fbn : Int) (st s1 : FS) (r : Int),
      writeLoop B fd inum numb buf fuel bytes_written bp fbn st = .ok r s1 → r = 0 := by
  intro fuel
  induction fuel with
  | zero =>
    intro bw bp fbn st s1 r h
    rw [writeLoop] at h
    split at h
    · cases h
    · cases h; rfl
  | succ fuel ih =>
    intro bw bp fbn st s1 r h
    rw [writeLoop] at h
    by_cases hcond : bw < numb
    · rw [if_pos hcond] at h
      cases hrd : bfsRead st inum fbn with
      | error e => rw [hrd] at h; cases h
      | ok blk =>
        rw [hrd] at h
        dsimp only at h
        cases hd : bfsFbnToDbn st inum fbn with
        | error e => rw [hd] at h; cases h
        | ok d =>
          rw [hd] at h
          dsimp only at h
          generalize (if i32sub numb bw < (B : Int) then i32sub numb bw else (B : Int)) = tw at h
          cases hbw : bioWrite st d (memcpy blk 0 buf bp tw.toNat) with
          | fatal e s => rw [hbw] at h; cases h
          | ok u s =>
            rw [hbw] at h
            dsimp only at h
            cases hsk : fsSeek s fd tw SEEK_CUR with
            | fatal e s2 => rw [hsk] at h; cases h
            | ok r2 s2 =>
              rw [hsk] at h
              exact ih _ _ _ _ _ _ h
    · rw [if_neg hcond] at h
      cases h; rfl

theorem fsWriteData_ret {B : Nat} {st s1 : FS} {fd : Int} {inum : Nat} {numb : Int}
    {buf : Nat → Nat} {fbn offset r : Int}
    (h : fsWriteData B st fd inum numb buf fbn offset = .ok r s1) : r = 0 := by
  unfold fsWriteData at h
  by_cases h2 : offset ≠ 0
  · rw [if_pos h2] at h
    cases hrd : bfsRead st inum fbn with
    | error e => rw [hrd] at h; cases h
    | ok blk =>
      rw [hrd] at h
      dsimp only at h
      cases hd : bfsFbnToDbn st inum fbn with
      | error e => rw [hd] at h; cases h
      | ok d =>
        rw [hd] at h
        dsimp only at h
        generalize (if numb < i32sub (B : Int) offset then numb else i32sub (B : Int) offset)
          = tw at h
        cases hbw : bioWrite st d (memcpy blk offset.toNat buf 0 tw.toNat) with
        | fatal e s => rw [hbw] at h; cases h
        | ok u s =>
          rw [hbw] at h
          dsimp only at h
          cases hsk : fsSeek s fd tw SEEK_CUR with
          | fatal e s2 => rw [hsk] at h; cases h
          | ok r2 s2 =>
            rw [hsk] at h
            dsimp only at h
            by_cases h3 : i32add 0 tw = numb
            · rw [if_pos h3] at h
              cases h; rfl
            · rw [if_neg h3] at h
              exact writeLoop_ret B fd inum numb buf _ _ _ _ _ _ _ h
  · rw [if_neg h2] at h
    exact writeLoop_ret B fd inum numb buf _ _ _ _ _ _ _ h

theorem fsWrite_frame (B : Nat) (st : FS) (fd numb : Int) (buf : Nat → Nat) (inum : Nat)
    (hi : bfsFdToInum st fd = .ok inum) :
    (fsWrite B st fd numb buf).state.fds = st.fds ∧
    (fsWrite B st fd numb buf).state.dir = st.dir ∧
    (fsWrite B st fd numb buf).state.totalBlocks = st.totalBlocks ∧
    (∀ j, j ≠ inum → (fsWrite B st fd numb buf).state.inodes j = st.inodes j) ∧
    (∀ d, d ∉ ((fsWrite B st fd numb buf).state.inodes inum).blockMap →
      (fsWrite B st fd numb buf).state.disk d = st.disk d) ∧
    (∃ o c1, (fsWrite B st fd numb buf).state.oft = setCursAt st.oft o c1) ∧
    (∀ r s1, fsWrite B st fd numb buf = .ok r s1 →
      r = 0 ∧ ∃ c, bfsTell st fd = .ok c ∧
        (s1.inodes inum).size
          = if i32add c numb > bfsGetSize st inum then i32add c numb
            else bfsGetSize st inum) := by
  unfold fsWrite
  rw [hi]
  dsimp only
  cases ht : bfsTell st fd with
  | error e =>
    exact ⟨rfl, rfl, rfl, fun _ _ => rfl, fun _ _ => rfl,
      ⟨0, oftCurs st 0, (setCursAt_oftCurs st 0).symm⟩, fun r s1 h => by cases h⟩
  | ok c =>
    obtain ⟨ofte, hv, -⟩ := validFd_of_tell hi ht
    dsimp only
    obtain ⟨g1, g2, g3, g4, g5, g6, g7⟩ := fsWriteGrow_frame B st inum c numb
      (bfsGetSize st inum) (i32div (i32sub (i32add (bfsGetSize st inum) B) 1) B)
    cases hgrow : fsWriteGrow B st inum c numb (bfsGetSize st inum)
        (i32div (i32sub (i32add (bfsGetSize st inum) B) 1) B) with
    | fatal e s =>
      rw [hgrow] at g1 g2 g3 g4 g5 g6
      refine ⟨g3, g4, g5, g6, fun d _ => by rw [show (Res.fatal (α := Int) e s).state = s from rfl,
        show (Res.fatal (α := Unit) e s).state = s from rfl] at *; rw [g1],
        ⟨ofte, oftCurs st ofte, ?_⟩, fun r s1 h => by cases h⟩
      rw [setCursAt_oftCurs]; exact g2
    | ok u s0 =>
      rw [hgrow] at g1 g2 g3 g4 g5 g6
      simp only [Res.state] at g1 g2 g3 g4 g5 g6
      dsimp only
      have hv0 : ValidFd s0 fd inum ofte := by
        refine ⟨?_, ?_⟩
        · have := hv.1
          simpa [bfsFdToInum, g3] using this
        · have := hv.2
          simpa [bfsFindOFTE, g2] using this
      obtain ⟨w1, w2, w3, w4, w5, ⟨c1, w6⟩, w7⟩ := fsWriteData_frame B s0 fd inum ofte numb buf
        (i32div c B) (i32mod c B) hv0
      refine ⟨w3.trans g3, w4.trans g4, w5.trans g5, ?_, ?_, ⟨ofte, c1, by rw [w6, g2]⟩, ?_⟩
      · intro j hj
        rw [w1]; exact g6 j hj
      · intro d hd
        rw [w1] at hd
        rw [w7 d hd, g1]
      · intro r s1 h
        rw [h] at w1
        simp only [Res.state] at w1
        have hr : r = 0 := fsWriteData_ret h
        refine ⟨hr, c, rfl, ?_⟩
        rw [w1]
        exact g7 u s0 hgrow

/-! ## Corollaries used by the claims -/

theorem fsRead_eof (B : Nat) {st : FS} {fd : Int} {inum ofte : Nat}
    (hv : ValidFd st fd inum ofte) (numb : Int) (buf : Nat → Nat)
    (hle : bfsGetSize st inum ≤ oftCurs st ofte) :
    fsRead B st fd numb buf = .ok (0, buf) st := by
  simp [fsRead, hv.1, bfsTell_of_valid hv, hle]

theorem ValidFd.of_tables {st s1 : FS} {fd : Int} {inum ofte : Nat}
    (hv : ValidFd st fd inum ofte) (hfds : s1.fds = st.fds) {o : Nat} {c : Int}
    (hoft : s1.oft = setCursAt st.oft o c) : ValidFd s1 fd inum ofte := by
  refine ⟨?_, ?_⟩
  · have := hv.1
    simpa [bfsFdToInum, hfds] using this
  · have := hv.2
    simpa [bfsFindOFTE, hoft, findOFTE_setCursAt] using this

theorem lt_blocksFor {B n g : Nat} (hB : 0 < B) (h : g < blocksFor B (n : Int)) : g * B < n := by
  obtain ⟨-, h2⟩ := blocksFor_bounds B n hB
  have h3 : (g + 1) * B ≤ blocksFor B (n : Int) * B := Nat.mul_le_mul_right B h
  have h4 : (g + 1) * B = g * B + B := by ring
  omega

theorem fileByte_of_disk {B : Nat} {st st1 : FS} {inum c N : Nat} {buf : Nat → Nat}
    (hB : 0 < B) (hmap : (st1.inodes inum).blockMap = (st.inodes inum).blockMap)
    (hdisk : ∀ g d j, (st.inodes inum).blockMap[g]? = some d → j < B →
      st1.disk d j = if c ≤ g * B + j ∧ g * B + j < c + N
        then buf (g * B + j - c) else st.disk d j) (p : Nat) :
    fileByte B st1 inum p
      = if c ≤ p ∧ p < c + N then (fileByte B st inum p).map (fun _ => buf (p - c))
        else fileByte B st inum p := by
  unfold fileByte
  rw [hmap]
  cases hm : (st.inodes inum).blockMap[p / B]? with
  | none =>
    by_cases hcond : c ≤ p ∧ p < c + N
    · rw [if_pos hcond]; rfl
    · rw [if_neg hcond]
  | some d =>
    have e : p / B * B + p % B = p := by
      rw [Nat.mul_comm]; exact Nat.div_add_mod p B
    have hd := hdisk (p / B) d (p % B) hm (Nat.mod_lt p hB)
    rw [e] at hd
    by_cases hcond : c ≤ p ∧ p < c + N
    · rw [if_pos hcond] at hd ⊢
      simp only [Option.map_some']
      rw [hd]
    · rw [if_neg hcond] at hd ⊢
      simp only []
      rw [hd]

theorem fileByte_isSome {B : Nat} {st : FS} {inum M p : Nat} (hB : 0 < B)
    (hmap : Mapped st inum M) (hp : p < M * B) : ∃ v, fileByte B st inum p = some v := by
  have hg : p / B < M := (Nat.div_lt_iff_lt_mul hB).2 hp
  obtain ⟨d, hd, -⟩ := hmap (p / B) hg
  exact ⟨st.disk d (p % B), by simp [fileByte, hd]⟩

theorem fsRead_exact (B : Nat) (hB : 0 < B) (st : FS) (fd : Int) (n : Nat) (buf : Nat → Nat)
    (inum ofte c s : Nat) (hv : ValidFd st fd inum ofte)
    (hc : oftCurs st ofte = (c : Int)) (hs : bfsGetSize st inum = (s : Int))
    (hcn : c + n ≤ s) (hhead : (s : Int) + B ≤ 2147483647)
    (hmap : Mapped st inum (blocksFor B (s : Int))) :
    ∃ out, fsRead B st fd (n : Int) buf
        = .ok ((n : Int), out) (setCurs st ofte ((c : Int) + (n : Int))) ∧
      (∀ i, i < n → fileByte B st inum (c + i) = some (out i)) ∧
      (∀ i, n ≤ i → out i = buf i) := by
  by_cases hcs : c < s
  · obtain ⟨k, out, h1, -, h3, -, -, h6, h7⟩ := fsRead_spec B hB st fd (n : Int) buf inum ofte c s hv
      hc hs hcs (by omega) (by omega) hhead hmap
    have hk : k = n := by
      have := h3 (by omega)
      omega
    subst hk
    exact ⟨out, h1, h6, h7⟩
  · have hn : n = 0 := by omega
    subst hn
    refine ⟨buf, ?_, fun i hi => by omega, fun _ _ => rfl⟩
    rw [fsRead_eof B hv _ _ (by rw [hc, hs]; omega)]
    simp only [Nat.cast_zero, add_zero]
    rw [← hc, setCurs_self]

/-! ## Two descriptors of one inode -/

theorem fsSeek_congr {st : FS} {d1 d2 : Int} (h : bfsFdToInum st d1 = bfsFdToInum st d2)
    (offset whence : Int) : fsSeek st d1 offset whence = fsSeek st d2 offset whence := by
  unfold fsSeek fsSize
  rw [h]

theorem bfsFdToInum_of_seek {st s1 : FS} {fd offset whence r : Int}
    (h : fsSeek st fd offset whence = .ok r s1) (d : Int) :
    bfsFdToInum s1 d = bfsFdToInum st d := by
  obtain ⟨-, -, inum, ofte, c1, -, hs⟩ := fsSeek_ok h
  subst hs
  rfl

theorem readLoop_congr (B : Nat) (d1 d2 : Int) (inum : Nat) (numb num_blocks : Int) :
    ∀ (fuel : Nat) (bytes_read fbn : Int) (buf : Nat → Nat) (st : FS),
      bfsFdToInum st d1 = bfsFdToInum st d2 →
      readLoop B d1 inum numb num_blocks fuel bytes_read fbn buf st
        = readLoop B d2 inum numb num_blocks fuel bytes_read fbn buf st := by
  intro fuel
  induction fuel with
  | zero => intro br fbn buf st _; rw [readLoop, readLoop]
  | succ fuel ih =>
    intro br fbn buf st h
    rw [readLoop, readLoop]
    by_cases hcond : br < numb ∧ fbn < num_blocks
    · rw [if_pos hcond, if_pos hcond]
      cases hrd : bfsRead st inum fbn with
      | error e => rfl
      | ok blk =>
        dsimp only
        generalize (if i32sub numb br < (B : Int) then i32sub numb br else (B : Int)) = tr
        rw [fsSeek_congr h tr SEEK_CUR]
        cases hsk : fsSeek st d2 tr SEEK_CUR with
        | fatal e s => rfl
        | ok r s =>
          dsimp only
          apply ih
          rw [bfsFdToInum_of_seek hsk, bfsFdToInum_of_seek hsk, h]
    · rw [if_neg hcond, if_neg hcond]

theorem fsRead_congr (B : Nat) {st : FS} {d1 d2 : Int}
    (h : bfsFdToInum st d1 = bfsFdToInum st d2) (numb : Int) (buf : Nat → Nat) :
    fsRead B st d1 numb buf = fsRead B st d2 numb buf := by
  have ht : bfsTell st d1 = bfsTell st d2 := by unfold bfsTell; rw [h]
  unfold fsRead
  rw [h, ht]
  cases hi : bfsFdToInum st d2 with
  | error e => rfl
  | ok inum =>
    dsimp only
    cases hc : bfsTell st d2 with
    | error e => rfl
    | ok c =>
      dsimp only
      by_cases h1 : c ≥ bfsGetSize st inum
      · rw [if_pos h1, if_pos h1]
      · rw [if_neg h1, if_neg h1]
        generalize (if i32add c numb > bfsGetSize st inum then i32sub (bfsGetSize st inum) c
          else numb) = nm
        by_cases h2 : i32mod c B ≠ 0
        · rw [if_pos h2, if_pos h2]
          cases hrd : bfsRead st inum (i32div c B) with
          | error e => rfl
          | ok blk =>
            dsimp only
            generalize (if nm < i32sub (B : Int) (i32mod c B) then nm
              else i32sub (B : Int) (i32mod c B)) = tr
            rw [fsSeek_congr h tr SEEK_CUR]
            cases hsk : fsSeek st d2 tr SEEK_CUR with
            | fatal e s => rfl
            | ok r s =>
              dsimp only
              by_cases h3 : i32add 0 tr = nm
              · rw [if_pos h3, if_pos h3]
              · rw [if_neg h3, if_neg h3]
                apply readLoop_congr
                rw [bfsFdToInum_of_seek hsk, bfsFdToInum_of_seek hsk, h]
        · rw [if_neg h2, if_neg h2]
          exact readLoop_congr B d1 d2 inum _ _ _ _ _ _ st h

theorem bfsFdToInum_of_bioWrite {st s1 : FS} {d : Nat} {blk : Nat → Nat} {u : Unit}
    (h : bioWrite st d blk = .ok u s1) (fd : Int) : bfsFdToInum s1 fd = bfsFdToInum st fd := by
  unfold bioWrite at h
  split at h
  · cases h; rfl
  · cases h

theorem writeLoop_congr (B : Nat) (d1 d2 : Int) (inum : Nat) (numb : Int) (buf : Nat → Nat) :
    ∀ (fuel : Nat) (bytes_written : Int) (bp : Nat) (fbn : Int) (st : FS),
      bfsFdToInum st d1 = bfsFdToInum st d2 →
      writeLoop B d1 inum numb buf fuel bytes_written bp fbn st
        = writeLoop B d2 inum numb buf fuel bytes_written bp fbn st := by
  intro fuel
  induction fuel with
  | zero => intro bw bp fbn st _; rw [writeLoop, writeLoop]
  | succ fuel ih =>
    intro bw bp fbn st h
    rw [writeLoop, writeLoop]
    by_cases hcond : bw < numb
    · rw [if_pos hcond, if_pos hcond]
      cases hrd : bfsRead st inum fbn with
      | error e => rfl
      | ok blk =>
        dsimp only
        cases hd : bfsFbnToDbn st inum fbn with
        | error e => rfl
        | ok d =>
          dsimp only
          generalize (if i32sub numb bw < (B : Int) then i32sub numb bw else (B : Int)) = tw
          cases hbw : bioWrite st d (memcpy blk 0 buf bp tw.toNat) with
          | fatal e s => rfl
          | ok u s =>
            dsimp only
            have hs : bfsFdToInum s d1 = bfsFdToInum s d2 := by
              rw [bfsFdToInum_of_bioWrite hbw, bfsFdToInum_of_bioWrite hbw, h]
            rw [fsSeek_congr hs tw SEEK_CUR]
            cases hsk : fsSeek s d2 tw SEEK_CUR with
            | fatal e s2 => rfl
            | ok r s2 =>
              dsimp only
              apply ih
              rw [bfsFdToInum_of_seek hsk, bfsFdToInum_of_seek hsk, hs]
    · rw [if_neg hcond, if_neg hcond]

theorem fsWriteData_congr (B : Nat) {st : FS} {d1 d2 : Int}
    (h : bfsFdToInum st d1 = bfsFdToInum st d2) (inum : Nat) (numb : Int) (buf : Nat → Nat)
    (fbn offset : Int) :
    fsWriteData B st d1 inum numb buf fbn offset = fsWriteData B st d2 inum numb buf fbn offset := by
  unfold fsWriteData
  by_cases h2 : offset ≠ 0
  · rw [if_pos h2, if_pos h2]
    cases hrd : bfsRead st inum fbn with
    | error e => rfl
    | ok blk =>
      dsimp only
      cases hd : bfsFbnToDbn st inum fbn with
      | error e => rfl
      | ok d =>
        dsimp only
        generalize (if numb < i32sub (B : Int) offset then numb else i32sub (B : Int) offset) = tw
        cases hbw : bioWrite st d (memcpy blk offset.toNat buf 0 tw.toNat) with
        | fatal e s => rfl
        | ok u s =>
          dsimp only
          have hs : bfsFdToInum s d1 = bfsFdToInum s d2 := by
            rw [bfsFdToInum_of_bioWrite hbw, bfsFdToInum_of_bioWrite hbw, h]
          rw [fsSeek_congr hs tw SEEK_CUR]
          cases hsk : fsSeek s d2 tw SEEK_CUR with
          | fatal e s2 => rfl
          | ok r s2 =>
            dsimp only
            by_cases h3 : i32add 0 tw = numb
            · rw [if_pos h3, if_pos h3]
            · rw [if_neg h3, if_neg h3]
              apply writeLoop_congr
              rw [bfsFdToInum_of_seek hsk, bfsFdToInum_of_seek hsk, hs]
  · rw [if_neg h2, if_neg h2]
    exact writeLoop_congr B d1 d2 inum numb buf _ _ _ _ st h

theorem fsWrite_congr (B : Nat) {st : FS} {d1 d2 : Int}
    (h : bfsFdToInum st d1 = bfsFdToInum st d2) (numb : Int) (buf : Nat → Nat) :
    fsWrite B st d1 numb buf = fsWrite B st d2 numb buf := by
  have ht : bfsTell st d1 = bfsTell st d2 := by unfold bfsTell; rw [h]
  unfold fsWrite
  rw [h, ht]
  cases hi : bfsFdToInum st d2 with
  | error e => rfl
  | ok inum =>
    dsimp only
    cases hc : bfsTell st d2 with
    | error e => rfl
    | ok c =>
      dsimp only
      obtain ⟨-, -, g3, -, -, -, -⟩ := fsWriteGrow_frame B st inum c numb
        (bfsGetSize st inum) (i32div (i32sub (i32add (bfsGetSize st inum) B) 1) B)
      cases hgrow : fsWriteGrow B st inum c numb (bfsGetSize st inum)
          (i32div (i32sub (i32add (bfsGetSize st inum) B) 1) B) with
      | fatal e s => rfl
      | ok u s0 =>
        rw [hgrow] at g3
        dsimp only
        apply fsWriteData_congr
        have e1 : bfsFdToInum s0 d1 = bfsFdToInum st d1 := by
          simp only [Res.state] at g3; simp [bfsFdToInum, g3]
        have e2 : bfsFdToInum s0 d2 = bfsFdToInum st d2 := by
          simp only [Res.state] at g3; simp [bfsFdToInum, g3]
        rw [e1, e2, h, hi]

/-! ## Writes that grow the file -/

/-- C2: when `fsWrite(fd, n, buf)` returns on a file of size `s` with cursor
`c`, and `c + n` is representable as a signed 32-bit integer, `fsSize` then
returns `max(s, c + n)`: the size is unchanged when `c + n <= s` and is `c + n`
otherwise. -/
theorem fsWrite_size (B : Nat) (st st1 : FS) (fd numb r c : Int) (buf : Nat → Nat) (inum : Nat)
    (hi : bfsFdToInum st fd = .ok inum) (hc : bfsTell st fd = .ok c)
    (hrep : I32 (c + numb)) (hw : fsWrite B st fd numb buf = .ok r st1) :
    fsSize st1 fd = .ok (max (bfsGetSize st inum) (c + numb)) st1 ∧
    (c + numb ≤ bfsGetSize st inum → bfsGetSize st1 inum = bfsGetSize st inum) ∧
    (bfsGetSize st inum < c + numb → bfsGetSize st1 inum = c + numb) := by
  obtain ⟨f1, -, -, -, -, -, f7⟩ := fsWrite_frame B st fd numb buf inum hi
  rw [hw] at f1
  simp only [Res.state] at f1
  obtain ⟨-, c1, hc1, hsz⟩ := f7 r st1 hw
  rw [hc] at hc1
  cases hc1
  have hadd : i32add c numb = c + numb := by
    rw [i32add, wrap32_eq hrep.1 hrep.2]
  rw [hadd] at hsz
  have hi1 : bfsFdToInum st1 fd = .ok inum := by
    have := hi
    simpa [bfsFdToInum, f1] using this
  have hsize : bfsGetSize st1 inum = max (bfsGetSize st inum) (c + numb) := by
    show (st1.inodes inum).size = _
    rw [hsz]
    by_cases hgt : c + numb > bfsGetSize st inum
    · rw [if_pos hgt, max_eq_right (le_of_lt hgt)]
    · rw [if_neg hgt, max_eq_left (not_lt.mp hgt)]
  refine ⟨?_, ?_, ?_⟩
  · simp [fsSize, hi1, hsize]
  · intro h; rw [hsize, max_eq_left h]
  · intro h; rw [hsize, max_eq_right (le_of_lt h)]

/-- Witness for C2: writing 100 bytes at cursor 5 of a 10-byte file with two
mapped blocks (block size 64) makes the size `max(10, 5 + 100)`. -/
theorem fsWrite_size_witness :
    ∃ st1, fsWrite 64 (oneFileFS 10 [7, 8] 5 []) 0 100 (fun _ => 171) = .ok 0 st1 ∧
      fsSize st1 0 = .ok (max 10 (5 + 100)) st1 :=
  ⟨_, rfl,
    (fsWrite_size 64 (oneFileFS 10 [7, 8] 5 []) _ 0 100 0 5 (fun _ => 171) 0 rfl rfl
      ⟨by decide, by decide⟩ rfl).1⟩

/-- Evaluation for C3: with cursor 1 on a 10-byte file (block size 64) a read
of `2147483647` bytes returns 63, not `min(2147483647, 10 - 1) = 9`, and leaves
the cursor at 64, past the size: `curs + numb` wraps to a negative number, so
the count is not clamped. -/
theorem fsRead_clamp_overflow :
    ∃ out st1, fsRead 64 (oneFileFS 10 [7] 1 []) 0 2147483647 (fun _ => 0) = .ok (63, out) st1 ∧
      oftCurs st1 0 = 64 ∧ bfsGetSize st1 0 = 10 ∧ (63 : Int) ≠ min 2147483647 (10 - 1) :=
  ⟨_, _, rfl, rfl, rfl, by decide⟩

/-- C4: on a file of size `s` whose blocks are mapped, with cursor `c < s` and
`0 <= n`, `fsRead` returns some `k` and the `k` bytes it puts into the buffer
are the file bytes at offsets `c, ..., c + k - 1` (byte `p % B` of the disk
block mapped to file block `p / B`), whether or not `c` is block-aligned and
however many blocks the range spans; `k` is `min(n, s - c)` when `c + n` does
not overflow. The size is taken at least one block below `2^31`. -/
theorem fsRead_bytes (B : Nat) (hB : 0 < B) (st : FS) (fd n : Int) (buf : Nat → Nat)
    (inum ofte c s : Nat) (hv : ValidFd st fd inum ofte)
    (hc : oftCurs st ofte = (c : Int)) (hs : bfsGetSize st inum = (s : Int))
    (hcs : c < s) (hn0 : 0 ≤ n) (hn1 : n ≤ 2147483647)
    (hhead : (s : Int) + B ≤ 2147483647) (hmap : Mapped st inum (blocksFor B (s : Int))) :
    ∃ (k : Nat) (out : Nat → Nat) (st1 : FS),
      fsRead B st fd n buf = .ok ((k : Int), out) st1 ∧
      ((c : Int) + n ≤ 2147483647 → (k : Int) = min n ((s : Int) - (c : Int))) ∧
      (∀ i, i < k → fileByte B st inum (c + i) = some (out i)) ∧
      (∀ i, k ≤ i → out i = buf i) := by
  obtain ⟨k, out, h1, -, h3, h4, -, h6, h7⟩ :=
    fsRead_spec B hB st fd n buf inum ofte c s hv hc hs hcs hn0 hn1 hhead hmap
  refine ⟨k, out, _, h1, ?_, h6, h7⟩
  intro hcn
  by_cases hle : (c : Int) + n ≤ s
  · rw [h3 hle, min_eq_left (by omega)]
  · have hk := h4 (by omega) hcn
    rw [min_eq_right (by omega)]
    omega

/-- Witness for C4: after writing 100 bytes `0xAB` at offset 0 and seeking to
50, reading 100 bytes returns 50 bytes, each the file byte at its offset; they
are 50 bytes `0xAB`. -/
theorem fsRead_bytes_witness :
    Mapped abFS 0 (blocksFor 64 ((100 : Nat) : Int)) ∧
    (∃ out st1, fsRead 64 abFS 0 100 (fun _ => 0) = .ok (50, out) st1 ∧
      (∀ i, i < 50 → out i = 171) ∧ out 50 = 0) ∧
    ∃ (k : Nat) (out : Nat → Nat) (st1 : FS),
      fsRead 64 abFS 0 100 (fun _ => 0) = .ok ((k : Int), out) st1 ∧
      (((50 : Nat) : Int) + 100 ≤ 2147483647 →
        (k : Int) = min 100 (((100 : Nat) : Int) - ((50 : Nat) : Int))) ∧
      (∀ i, i < k → fileByte 64 abFS 0 (50 + i) = some (out i)) ∧
      (∀ i, k ≤ i → out i = (fun _ => 0) i) :=
  have hm : Mapped abFS 0 (blocksFor 64 ((100 : Nat) : Int)) := by
    intro g hg
    have hg2 : g < 2 := hg
    interval_cases g
    · exact ⟨7, rfl, by decide⟩
    · exact ⟨8, rfl, by decide⟩
  ⟨hm, ⟨_, _, rfl, by decide, rfl⟩, fsRead_bytes 64 (by decide) abFS 0 100 (fun _ => 0) 0 0 50 100 ⟨rfl, rfl⟩ rfl rfl
    (by decide) (by decide) (by decide) (by decide) hm⟩

/-- C5: on a file of size `s` whose block map has no duplicate and covers `s`
(with `s` at least one block below `2^31`), a write of `n` bytes at cursor `c`
with `c + n <= s` returns 0, keeps the size, puts `buf` at offsets
`[c, c + n)` and leaves every other file byte as it was, also the bytes before
and after the written range inside the first and last touched blocks. -/
theorem fsWrite_preserves_other_bytes (B : Nat) (hB : 0 < B) (st : FS) (fd : Int) (N : Nat)
    (buf : Nat → Nat) (inum ofte c s : Nat) (hv : ValidFd st fd inum ofte)
    (hc : oftCurs st ofte = (c : Int)) (hs : bfsGetSize st inum = (s : Int))
    (hcN : c + N ≤ s) (hhead : (s : Int) + B ≤ 2147483647)
    (hnd : (st.inodes inum).blockMap.Nodup) (hmap : Mapped st inum (blocksFor B (s : Int))) :
    ∃ st1, fsWrite B st fd N buf = .ok 0 st1 ∧ bfsGetSize st1 inum = (s : Int) ∧
      (∀ p, ¬ (c ≤ p ∧ p < c + N) → fileByte B st1 inum p = fileByte B st inum p) ∧
      (∀ p, c ≤ p → p < c + N → fileByte B st1 inum p = some (buf (p - c))) := by
  obtain ⟨hb1, -⟩ := blocksFor_bounds B s hB
  obtain ⟨st1, hres, -, -, -, -, q5, q6, -, q8, -⟩ :=
    fsWrite_spec B hB st fd N buf inum ofte c s (blocksFor B (s : Int)) hv hc hs (by omega)
      hhead hnd hmap (by omega)
  have hbytes := fileByte_of_disk hB q5 q8
  refine ⟨st1, hres, ?_, ?_, ?_⟩
  · show (st1.inodes inum).size = _
    rw [q6, if_neg (by omega)]
  · intro p hp
    rw [hbytes p, if_neg hp]
  · intro p hp1 hp2
    rw [hbytes p, if_pos ⟨hp1, hp2⟩]
    obtain ⟨v, hv⟩ := fileByte_isSome hB hmap (show p < blocksFor B (s : Int) * B by omega)
    rw [hv]
    rfl

/-- Witness for C5: writing 10 bytes at offset 5 into a 64-byte block filled
with a pattern leaves the bytes at offsets 4 and 15 as they were. -/
theorem fsWrite_preserves_other_bytes_witness :
    Mapped patternFS 0 (blocksFor 64 ((64 : Nat) : Int)) ∧
    ∃ st1, fsWrite 64 patternFS 0 (10 : Nat) (fun _ => 0) = .ok 0 st1 ∧
      fileByte 64 st1 0 4 = fileByte 64 patternFS 0 4 ∧
      fileByte 64 st1 0 15 = fileByte 64 patternFS 0 15 ∧
      fileByte 64 st1 0 5 = some 0 ∧ fileByte 64 patternFS 0 5 = some 6 :=
  have hm : Mapped patternFS 0 (blocksFor 64 ((64 : Nat) : Int)) := by
    intro g hg
    have hg2 : g < 1 := hg
    interval_cases g
    exact ⟨7, rfl, by decide⟩
  ⟨hm, by
    obtain ⟨st1, h1, -, h3, h4⟩ := fsWrite_preserves_other_bytes 64 (by decide) patternFS 0 10
      (fun _ => 0) 0 0 5 64 ⟨rfl, rfl⟩ rfl rfl (by decide) (by decide) (by decide) hm
    exact ⟨st1, h1, h3 4 (by decide), h3 15 (by decide), h4 5 (by decide) (by decide), rfl⟩⟩

/-- C8: for a valid descriptor `fsSeek` aborts exactly when the requested
offset is negative or `whence` is none of `SEEK_SET`, `SEEK_CUR`, `SEEK_END`,
and returns `0` otherwise; a negative offset aborts with `EBADCURS` whatever
the mode, an unknown mode with a non-negative offset aborts with `EBADWHENCE`,
and in both aborts the state (the cursor included) is the one before the call. -/
theorem fsSeek_fatal_iff (st : FS) (fd offset whence : Int) (inum ofte : Nat)
    (hv : ValidFd st fd inum ofte) :
    ((∃ e s, fsSeek st fd offset whence = .fatal e s) ↔
      (offset < 0 ∨ (whence ≠ SEEK_SET ∧ whence ≠ SEEK_CUR ∧ whence ≠ SEEK_END))) ∧
    (¬ (offset < 0 ∨ (whence ≠ SEEK_SET ∧ whence ≠ SEEK_CUR ∧ whence ≠ SEEK_END)) →
      ∃ s, fsSeek st fd offset whence = .ok 0 s) ∧
    (offset < 0 → fsSeek st fd offset whence = .fatal .EBADCURS st) ∧
    (0 ≤ offset → whence ≠ SEEK_SET → whence ≠ SEEK_CUR → whence ≠ SEEK_END →
      fsSeek st fd offset whence = .fatal .EBADWHENCE st) := by
  have hneg : offset < 0 → fsSeek st fd offset whence = .fatal .EBADCURS st := by
    intro h; simp [fsSeek, h]
  have hbad : 0 ≤ offset → whence ≠ SEEK_SET → whence ≠ SEEK_CUR → whence ≠ SEEK_END →
      fsSeek st fd offset whence = .fatal .EBADWHENCE st := by
    intro h0 h1 h2 h3
    simp [fsSeek, hv.1, hv.2, not_lt.mpr h0, h1, h2, h3]
  have hok : ¬ (offset < 0 ∨ (whence ≠ SEEK_SET ∧ whence ≠ SEEK_CUR ∧ whence ≠ SEEK_END)) →
      ∃ s, fsSeek st fd offset whence = .ok 0 s := by
    intro h
    have h0 : 0 ≤ offset := by
      by_contra hc; exact h (Or.inl (not_le.mp hc))
    by_cases h1 : whence = SEEK_SET
    · subst h1; exact ⟨_, fsSeek_set hv h0⟩
    by_cases h2 : whence = SEEK_CUR
    · subst h2; exact ⟨_, fsSeek_cur hv h0⟩
    by_cases h3 : whence = SEEK_END
    · subst h3; exact ⟨_, fsSeek_end hv h0⟩
    exact absurd (Or.inr ⟨h1, h2, h3⟩) h
  refine ⟨⟨?_, ?_⟩, hok, hneg, hbad⟩
  · rintro ⟨e, s, hf⟩
    by_contra hc
    obtain ⟨s', hs'⟩ := hok hc
    rw [hs'] at hf
    cases hf
  · rintro (h | ⟨h1, h2, h3⟩)
    · exact ⟨_, _, hneg h⟩
    · by_cases h0 : offset < 0
      · exact ⟨_, _, hneg h0⟩
      · exact ⟨_, _, hbad (not_lt.mp h0) h1 h2 h3⟩

/-- Witness for C8: with cursor 10 on a 200-byte file, `SEEK_CUR` by `-1`
aborts with `EBADCURS` although the resulting cursor would be 9. -/
theorem fsSeek_fatal_iff_witness :
    ValidFd (oneFileFS 200 [7, 8, 9, 10] 10 []) 0 0 0 ∧
    fsSeek (oneFileFS 200 [7, 8, 9, 10] 10 []) 0 (-1) SEEK_CUR
      = .fatal .EBADCURS (oneFileFS 200 [7, 8, 9, 10] 10 []) :=
  ⟨⟨rfl, rfl⟩,
    (fsSeek_fatal_iff (oneFileFS 200 [7, 8, 9, 10] 10 []) 0 (-1) SEEK_CUR 0 0
      ⟨rfl, rfl⟩).2.2.1 (by decide)⟩

/-- Evaluation for C9: on a 200-byte file, `fsSeek(fd, 2147483647, SEEK_SET)`
puts the cursor at `2147483647`; the `SEEK_CUR` by `1` that follows returns 0
and leaves the cursor at `-2147483648`, which `fsTell` then returns. It is not
the sum `2147483647 + 1`, and it is a negative cursor after a successful seek:
the guard of `fsSeek` tests the requested offset, not the resulting cursor. -/
theorem fsSeek_cur_wraps :
    fsSeek (oneFileFS 200 [7, 8, 9, 10] 10 []) 0 2147483647 SEEK_SET
      = .ok 0 (oneFileFS 200 [7, 8, 9, 10] 2147483647 []) ∧
    fsSeek (oneFileFS 200 [7, 8, 9, 10] 2147483647 []) 0 1 SEEK_CUR
      = .ok 0 (oneFileFS 200 [7, 8, 9, 10] (-2147483648) []) ∧
    fsTell (oneFileFS 200 [7, 8, 9, 10] (-2147483648) []) 0
      = .ok (-2147483648) (oneFileFS 200 [7, 8, 9, 10] (-2147483648) []) ∧
    (-2147483648 : Int) ≠ 2147483647 + 1 ∧ (-2147483648 : Int) < 0 := by
  refine ⟨?_, ?_, ?_, by decide, by decide⟩
  · rfl
  · rfl
  · rfl

/-- Seek followed by tell, inside the range of the cursor: for a valid
descriptor with cursor `c` on a file of size `s` and an offset `≥ 0`, `fsSeek`
returns `0` and `fsTell` then returns `offset` for `SEEK_SET`, `c + offset` for
`SEEK_CUR` when that sum is at most `2147483647`, and `s + offset` for
`SEEK_END` when that sum is at most `2147483647`; `fsSeek(fd, 0, SEEK_END)`
followed by `fsTell` returns the size. -/
theorem fsSeek_then_fsTell (st : FS) (fd offset : Int) (inum ofte : Nat)
    (hv : ValidFd st fd inum ofte) (ho : 0 ≤ offset)
    (hc : I32 (oftCurs st ofte)) (hs : I32 (bfsGetSize st inum)) :
    (∃ st1, fsSeek st fd offset SEEK_SET = .ok 0 st1 ∧ fsTell st1 fd = .ok offset st1) ∧
    (oftCurs st ofte + offset ≤ 2147483647 →
      ∃ st1, fsSeek st fd offset SEEK_CUR = .ok 0 st1 ∧
        fsTell st1 fd = .ok (oftCurs st ofte + offset) st1) ∧
    (bfsGetSize st inum + offset ≤ 2147483647 →
      ∃ st1, fsSeek st fd offset SEEK_END = .ok 0 st1 ∧
        fsTell st1 fd = .ok (bfsGetSize st inum + offset) st1) ∧
    (∃ st1 sz, fsSeek st fd 0 SEEK_END = .ok 0 st1 ∧ fsSize st1 fd = .ok sz st1 ∧
        fsTell st1 fd = .ok sz st1 ∧ fsSize st fd = .ok sz st) := by
  have hlt := bfsFindOFTE_lt hv.2
  have tell : ∀ v : Int, fsTell (setCurs st ofte v) fd = .ok v (setCurs st ofte v) := by
    intro v
    simp [fsTell, bfsTell_of_valid (hv.setCurs ofte v), oftCurs_setCurs v hlt]
  obtain ⟨hc1, hc2⟩ := hc
  obtain ⟨hs1, hs2⟩ := hs
  refine ⟨⟨_, fsSeek_set hv ho, tell _⟩, ?_, ?_, ?_⟩
  · intro h
    refine ⟨_, fsSeek_cur hv ho, ?_⟩
    rw [i32add, wrap32_eq (by omega) (by omega)]
    exact tell _
  · intro h
    refine ⟨_, fsSeek_end hv ho, ?_⟩
    rw [i32add, wrap32_eq (by omega) (by omega)]
    exact tell _
  · refine ⟨_, bfsGetSize st inum, fsSeek_end hv (le_refl 0), ?_, ?_, ?_⟩
    · simp [fsSize, hv.1]
    · rw [i32add, wrap32_eq (by omega) (by omega)]
      simpa using tell (bfsGetSize st inum)
    · simp [fsSize, hv.1]

/-- Example of seek followed by tell: on a 200-byte file with cursor 10,
`SEEK_END` by 5 puts the cursor at 205 and `fsTell` returns it. -/
theorem fsSeek_then_fsTell_example :
    ValidFd (oneFileFS 200 [7, 8, 9, 10] 10 []) 0 0 0 ∧
    ∃ st1, fsSeek (oneFileFS 200 [7, 8, 9, 10] 10 []) 0 5 SEEK_END = .ok 0 st1 ∧
      fsTell st1 0 = .ok (200 + 5) st1 :=
  ⟨⟨rfl, rfl⟩,
    (fsSeek_then_fsTell (oneFileFS 200 [7, 8, 9, 10] 10 []) 0 5 0 0 ⟨rfl, rfl⟩ (by decide)
      ⟨by decide, by decide⟩ ⟨by decide, by decide⟩).2.2.1 (by decide)⟩

/-- C10: a returning `fsSeek` leaves the inode table (sizes and block maps),
the free list, every disk block, the directory and the descriptor table as
they were, so `fsSize` is unchanged, also when the new cursor lies beyond the
size; in the open file table only the cursor of the entry of the descriptor
changes. -/
theorem fsSeek_frame (st st1 : FS) (fd offset whence r : Int)
    (h : fsSeek st fd offset whence = .ok r st1) :
    st1.inodes = st.inodes ∧ st1.free = st.free ∧ st1.disk = st.disk ∧
    st1.totalBlocks = st.totalBlocks ∧ st1.fds = st.fds ∧ st1.dir = st.dir ∧
    (∃ sz, fsSize st fd = .ok sz st ∧ fsSize st1 fd = .ok sz st1) ∧
    (∃ inum ofte c1, ValidFd st fd inum ofte ∧ st1.oft = setCursAt st.oft ofte c1 ∧
      st1.oft.length = st.oft.length ∧
      (∀ j, j ≠ ofte → st1.oft[j]? = st.oft[j]?) ∧
      st1.oft[ofte]? = st.oft[ofte]?.map (fun e => { e with curs := c1 })) := by
  obtain ⟨-, -, inum, ofte, c1, hv, hs⟩ := fsSeek_ok h
  subst hs
  refine ⟨rfl, rfl, rfl, rfl, rfl, rfl, ⟨bfsGetSize st inum, ?_, ?_⟩,
    inum, ofte, c1, hv, rfl, length_setCursAt _ _ _, ?_, ?_⟩
  · simp [fsSize, hv.1]
  · simp [fsSize, hv.1]
  · intro j hj
    exact getElem?_setCursAt_ne _ _ _ _ (Ne.symm hj)
  · exact getElem?_setCursAt_same _ _ _

/-- Witness for C10: seeking to offset 1000 of a 200-byte file keeps the size
at 200 and the block map at four blocks. -/
theorem fsSeek_frame_witness :
    fsSeek (oneFileFS 200 [7, 8, 9, 10] 10 [3]) 0 1000 SEEK_SET
      = .ok 0 (oneFileFS 200 [7, 8, 9, 10] 1000 [3]) ∧
    (oneFileFS 200 [7, 8, 9, 10] 1000 [3]).inodes = (oneFileFS 200 [7, 8, 9, 10] 10 [3]).inodes :=
  ⟨rfl, (fsSeek_frame (oneFileFS 200 [7, 8, 9, 10] 10 [3]) (oneFileFS 200 [7, 8, 9, 10] 1000 [3])
      0 1000 SEEK_SET 0 rfl).1⟩

/-! ## Reading at or past the end of the file -/

/-- C7: with the cursor `c` at or past the size, `fsRead` returns `0` for every
count, and the state (cursor, size, block map, free list, disk blocks) and the
caller buffer are exactly as before; the same holds right after an `fsSeek`
that leaves the cursor at or past the size, such as a `SEEK_SET` to an offset
`≥ size`. -/
theorem fsRead_at_eof (B : Nat) (st : FS) (fd numb : Int) (buf : Nat → Nat) (inum ofte : Nat)
    (hv : ValidFd st fd inum ofte) :
    (bfsGetSize st inum ≤ oftCurs st ofte → fsRead B st fd numb buf = .ok (0, buf) st) ∧
    (∀ offset whence r st1, fsSeek st fd offset whence = .ok r st1 →
      bfsGetSize st1 inum ≤ oftCurs st1 ofte →
      bfsGetSize st1 inum = bfsGetSize st inum ∧ fsRead B st1 fd numb buf = .ok (0, buf) st1) ∧
    (∀ offset, 0 ≤ offset → bfsGetSize st inum ≤ offset →
      ∃ st1, fsSeek st fd offset SEEK_SET = .ok 0 st1 ∧ oftCurs st1 ofte = offset ∧
        fsRead B st1 fd numb buf = .ok (0, buf) st1) := by
  refine ⟨fsRead_eof B hv numb buf, ?_, ?_⟩
  · intro offset whence r st1 hseek hle
    obtain ⟨-, -, inum1, ofte1, c1, hv1, hs⟩ := fsSeek_ok hseek
    subst hs
    exact ⟨rfl, fsRead_eof B (hv.setCurs _ _) numb buf hle⟩
  · intro offset h0 hle
    refine ⟨_, fsSeek_set hv h0, oftCurs_setCurs _ (bfsFindOFTE_lt hv.2), ?_⟩
    apply fsRead_eof B (hv.setCurs _ _)
    rw [oftCurs_setCurs _ (bfsFindOFTE_lt hv.2)]
    simpa using hle

/-- Witness for C7: on a 200-byte file with the cursor at 200, reading 50 bytes
returns 0 and changes nothing. -/
theorem fsRead_at_eof_witness :
    ValidFd (oneFileFS 200 [7, 8, 9, 10] 200 []) 0 0 0 ∧
    fsRead 64 (oneFileFS 200 [7, 8, 9, 10] 200 []) 0 50 (fun _ => 9)
      = .ok (0, fun _ => 9) (oneFileFS 200 [7, 8, 9, 10] 200 []) :=
  ⟨⟨rfl, rfl⟩,
    (fsRead_at_eof 64 (oneFileFS 200 [7, 8, 9, 10] 200 []) 0 50 (fun _ => 9) 0 0 ⟨rfl, rfl⟩).1
      (by decide)⟩

/-! ## Claims about growth, opening and sharing -/

/-- C12: when the directory lookup does not find the name, `fsOpen` returns the
code `EFNF` without aborting and the state, the open file table included, is
exactly as before; when the lookup finds inode `inum` (and `EFNF` is not an
inode number), `fsOpen` returns what `bfsInumToFd` produces for `inum`. -/
theorem fsOpen_spec (EFNF : Int) (st : FS) (fname : String) :
    (dirFind st.dir fname = none → fsOpen EFNF st fname = .ok EFNF st) ∧
    (∀ inum, dirFind st.dir fname = some inum → (inum : Int) ≠ EFNF →
      fsOpen EFNF st fname = bfsInumToFd st inum) := by
  constructor
  · intro h
    simp [fsOpen, bfsLookupFile, h]
  · intro inum h hne
    simp [fsOpen, bfsLookupFile, h, hne]

/-- Witness for C12: with `EFNF = -1`, opening the absent name `missing` returns
`-1` and keeps the state; opening `a` returns the new descriptor 1, bound to
inode 0, whose entry now counts two references. -/
theorem fsOpen_spec_witness :
    fsOpen (-1) (oneFileFS 0 [] 0 []) "missing" = .ok (-1) (oneFileFS 0 [] 0 []) ∧
    fsOpen (-1) (oneFileFS 0 [] 0 []) "a" = bfsInumToFd (oneFileFS 0 [] 0 []) 0 ∧
    ∃ st1, bfsInumToFd (oneFileFS 0 [] 0 []) 0 = .ok 1 st1 ∧
      st1.fds = [some 0, some 0] ∧ st1.oft = [{ inum := 0, curs := 0, refs := 2 }] :=
  ⟨(fsOpen_spec (-1) (oneFileFS 0 [] 0 []) "missing").1 (by decide),
    (fsOpen_spec (-1) (oneFileFS 0 [] 0 []) "a").2 0 (by decide) (by decide),
    _, rfl, rfl, rfl⟩

/-- Evaluation for C13: on a 200-byte file `fsSeek(fd, 2147483647, SEEK_END)`
returns 0 and leaves the cursor at `-2147483449`, a negative value: the sum
`200 + 2147483647` wraps in 32-bit arithmetic and only the requested offset is
checked. -/
theorem fsSeek_end_wraps_negative :
    fsSeek (oneFileFS 200 [7, 8, 9, 10] 10 []) 0 2147483647 SEEK_END
      = .ok 0 (oneFileFS 200 [7, 8, 9, 10] (-2147483449) []) ∧
    fsTell (oneFileFS 200 [7, 8, 9, 10] (-2147483449) []) 0
      = .ok (-2147483449) (oneFileFS 200 [7, 8, 9, 10] (-2147483449) []) ∧
    (-2147483449 : Int) < 0 :=
  ⟨rfl, rfl, by decide⟩

/-- C14: two descriptors `d1` and `d2` bound to the same inode share one
cursor. After an `fsSeek`, `fsRead` or `fsWrite` through `d1` has ended in
state `st1`, `fsTell(d2)` returns the cursor that call left (the same value as
`fsTell(d1)`), and the next `fsSeek`, `fsRead` or `fsWrite` through `d2` does
what the same call through `d1` does, so it starts at that cursor. -/
theorem shared_cursor (B : Nat) (st : FS) (d1 d2 : Int) (inum ofte : Nat)
    (h1 : ValidFd st d1 inum ofte) (h2 : ValidFd st d2 inum ofte) :
    ∀ st1, (∃ offset whence, st1 = (fsSeek st d1 offset whence).state) ∨
        (∃ numb buf, st1 = (fsRead B st d1 numb buf).state) ∨
        (∃ numb buf, st1 = (fsWrite B st d1 numb buf).state) →
      (∃ c1, fsTell st1 d1 = .ok c1 st1 ∧ fsTell st1 d2 = .ok c1 st1 ∧ c1 = oftCurs st1 ofte) ∧
      (∀ offset whence, fsSeek st1 d2 offset whence = fsSeek st1 d1 offset whence) ∧
      (∀ numb buf, fsRead B st1 d2 numb buf = fsRead B st1 d1 numb buf) ∧
      (∀ numb buf, fsWrite B st1 d2 numb buf = fsWrite B st1 d1 numb buf) := by
  have key : ∀ st1 : FS, st1.fds = st.fds → (∃ o c, st1.oft = setCursAt st.oft o c) →
      (∃ c1, fsTell st1 d1 = .ok c1 st1 ∧ fsTell st1 d2 = .ok c1 st1 ∧ c1 = oftCurs st1 ofte) ∧
      (∀ offset whence, fsSeek st1 d2 offset whence = fsSeek st1 d1 offset whence) ∧
      (∀ numb buf, fsRead B st1 d2 numb buf = fsRead B st1 d1 numb buf) ∧
      (∀ numb buf, fsWrite B st1 d2 numb buf = fsWrite B st1 d1 numb buf) := by
    intro st1 hfds ⟨o, c, hoft⟩
    have v1 : ValidFd st1 d1 inum ofte := h1.of_tables hfds hoft
    have v2 : ValidFd st1 d2 inum ofte := h2.of_tables hfds hoft
    have e : bfsFdToInum st1 d2 = bfsFdToInum st1 d1 := v2.1.trans v1.1.symm
    refine ⟨⟨oftCurs st1 ofte, ?_, ?_, rfl⟩, fun offset whence => fsSeek_congr e offset whence,
      fun numb buf => fsRead_congr B e numb buf, fun numb buf => fsWrite_congr B e numb buf⟩
    · simp [fsTell, bfsTell_of_valid v1]
    · simp [fsTell, bfsTell_of_valid v2]
  intro st1 hst1
  rcases hst1 with ⟨offset, whence, rfl⟩ | ⟨numb, buf, rfl⟩ | ⟨numb, buf, rfl⟩
  · obtain ⟨c1, hc1⟩ := fsSeek_state_of_valid h1 offset whence
    rw [hc1]
    exact key _ rfl ⟨ofte, c1, rfl⟩
  · obtain ⟨o, c1, hc1⟩ := fsRead_state B st d1 numb buf
    rw [hc1]
    exact key _ rfl ⟨o, c1, rfl⟩
  · obtain ⟨f1, -, -, -, -, f6, -⟩ := fsWrite_frame B st d1 numb buf inum h1.1
    exact key _ f1 f6

/-- Witness for C14: with descriptors 0 and 1 on one inode, after descriptor 0
seeks to offset 7, `fsTell` through descriptor 1 returns 7. -/
theorem shared_cursor_witness :
    ValidFd (twoFdFS 200 [7, 8, 9, 10] 0) 0 0 0 ∧ ValidFd (twoFdFS 200 [7, 8, 9, 10] 0) 1 0 0 ∧
    fsTell (fsSeek (twoFdFS 200 [7, 8, 9, 10] 0) 0 7 SEEK_SET).state 1
      = .ok 7 (fsSeek (twoFdFS 200 [7, 8, 9, 10] 0) 0 7 SEEK_SET).state ∧
    ∃ c1, fsTell (fsSeek (twoFdFS 200 [7, 8, 9, 10] 0) 0 7 SEEK_SET).state 0
        = .ok c1 (fsSeek (twoFdFS 200 [7, 8, 9, 10] 0) 0 7 SEEK_SET).state ∧
      fsTell (fsSeek (twoFdFS 200 [7, 8, 9, 10] 0) 0 7 SEEK_SET).state 1
        = .ok c1 (fsSeek (twoFdFS 200 [7, 8, 9, 10] 0) 0 7 SEEK_SET).state ∧
      c1 = oftCurs (fsSeek (twoFdFS 200 [7, 8, 9, 10] 0) 0 7 SEEK_SET).state 0 :=
  ⟨⟨rfl, rfl⟩, ⟨rfl, rfl⟩, rfl,
    (shared_cursor 64 (twoFdFS 200 [7, 8, 9, 10] 0) 0 1 0 0 ⟨rfl, rfl⟩ ⟨rfl, rfl⟩ _
      (Or.inl ⟨7, SEEK_SET, rfl⟩)).1⟩

/-- C15: `fsRead` is read-only on the file system. For every descriptor, count
and buffer, in the state in which the call ends (returned or aborted) the
inode table (sizes and block maps), the free list, every disk block, the
directory and the descriptor table are as before; in the open file table only
the cursor of one entry may differ. -/
theorem fsRead_readonly (B : Nat) (st : FS) (fd numb : Int) (buf : Nat → Nat) :
    (fsRead B st fd numb buf).state.inodes = st.inodes ∧
    (fsRead B st fd numb buf).state.free = st.free ∧
    (fsRead B st fd numb buf).state.disk = st.disk ∧
    (fsRead B st fd numb buf).state.totalBlocks = st.totalBlocks ∧
    (fsRead B st fd numb buf).state.dir = st.dir ∧
    (fsRead B st fd numb buf).state.fds = st.fds ∧
    ∃ o c1, (fsRead B st fd numb buf).state.oft = setCursAt st.oft o c1 ∧
      (∀ j, j ≠ o → (fsRead B st fd numb buf).state.oft[j]? = st.oft[j]?) ∧
      (fsRead B st fd numb buf).state.oft[o]?
        = st.oft[o]?.map (fun e => { e with curs := c1 }) := by
  obtain ⟨o, c1, h⟩ := fsRead_state B st fd numb buf
  rw [h]
  refine ⟨rfl, rfl, rfl, rfl, rfl, rfl, o, c1, rfl, ?_, ?_⟩
  · intro j hj
    exact getElem?_setCursAt_ne _ _ _ _ (Ne.symm hj)
  · exact getElem?_setCursAt_same _ _ _

/-- C17: reads compose. On a file of size `s` whose blocks are mapped (`s` at
least one block below `2^31`), with cursor `c` and `c + n1 + n2 <= s`, reading
`n1` bytes and then `n2` bytes returns `n1` and `n2`, ends in the same state
(so with the same cursor, `c + n1 + n2`) as one read of `n1 + n2` bytes, which
returns `n1 + n2`, and the two buffers one after the other hold the bytes of
the single read, wherever `n1` falls relative to the block boundaries. -/
theorem fsRead_compose (B : Nat) (hB : 0 < B) (st : FS) (fd : Int) (n1 n2 : Nat)
    (buf1 buf2 buf : Nat → Nat) (inum ofte c s : Nat) (hv : ValidFd st fd inum ofte)
    (hc : oftCurs st ofte = (c : Int)) (hs : bfsGetSize st inum = (s : Int))
    (hsum : c + n1 + n2 ≤ s) (hhead : (s : Int) + B ≤ 2147483647)
    (hmap : Mapped st inum (blocksFor B (s : Int))) :
    ∃ outA stA outB stB outC,
      fsRead B st fd (n1 : Int) buf1 = .ok ((n1 : Int), outA) stA ∧
      fsRead B stA fd (n2 : Int) buf2 = .ok ((n2 : Int), outB) stB ∧
      fsRead B st fd ((n1 + n2 : Nat) : Int) buf = .ok (((n1 + n2 : Nat) : Int), outC) stB ∧
      oftCurs stB ofte = ((c + n1 + n2 : Nat) : Int) ∧
      (∀ i, i < n1 → outA i = outC i) ∧ (∀ i, i < n2 → outB i = outC (n1 + i)) := by
  have hlt := bfsFindOFTE_lt hv.2
  obtain ⟨outA, hA, cA, -⟩ := fsRead_exact B hB st fd n1 buf1 inum ofte c s hv hc hs (by omega)
    hhead hmap
  have hvA : ValidFd (setCurs st ofte ((c : Int) + (n1 : Int))) fd inum ofte := hv.setCurs _ _
  have hcA : oftCurs (setCurs st ofte ((c : Int) + (n1 : Int))) ofte = ((c + n1 : Nat) : Int) := by
    rw [oftCurs_setCurs _ hlt]; push_cast; rfl
  obtain ⟨outB, hB2, cB, -⟩ := fsRead_exact B hB (setCurs st ofte ((c : Int) + (n1 : Int))) fd n2
    buf2 inum ofte (c + n1) s hvA hcA hs (by omega) hhead hmap
  obtain ⟨outC, hC, cC, -⟩ := fsRead_exact B hB st fd (n1 + n2) buf inum ofte c s hv hc hs
    (by omega) hhead hmap
  have hst : setCurs (setCurs st ofte ((c : Int) + (n1 : Int))) ofte
      (((c + n1 : Nat) : Int) + (n2 : Int)) = setCurs st ofte ((c : Int) + ((n1 + n2 : Nat) : Int)) := by
    rw [setCurs_setCurs]; push_cast; rw [add_assoc]
  rw [hst] at hB2
  refine ⟨outA, _, outB, _, outC, hA, hB2, hC, ?_, ?_, ?_⟩
  · rw [oftCurs_setCurs _ hlt]; push_cast; ring
  · intro i hi
    have a := cA i hi
    have b := cC i (by omega)
    rw [a] at b
    exact Option.some.inj b
  · intro i hi
    have a := cB i hi
    have b := cC (n1 + i) (by omega)
    simp only [fileByte_setCurs] at a
    rw [← Nat.add_assoc, a] at b
    exact Option.some.inj b

/-- Witness for C17: on a 200-byte file with cursor 50 (block size 64), reading
30 and then 100 bytes fills the buffers like one read of 130 bytes. -/
theorem fsRead_compose_witness :
    Mapped (oneFileFS 200 [7, 8, 9, 10] 50 []) 0 (blocksFor 64 ((200 : Nat) : Int)) ∧
    ∃ outA stA outB stB outC,
      fsRead 64 (oneFileFS 200 [7, 8, 9, 10] 50 []) 0 ((30 : Nat) : Int) (fun _ => 1)
        = .ok (((30 : Nat) : Int), outA) stA ∧
      fsRead 64 stA 0 ((100 : Nat) : Int) (fun _ => 2) = .ok (((100 : Nat) : Int), outB) stB ∧
      fsRead 64 (oneFileFS 200 [7, 8, 9, 10] 50 []) 0 ((30 + 100 : Nat) : Int) (fun _ => 3)
        = .ok (((30 + 100 : Nat) : Int), outC) stB ∧
      oftCurs stB 0 = ((50 + 30 + 100 : Nat) : Int) ∧
      (∀ i, i < 30 → outA i = outC i) ∧ (∀ i, i < 100 → outB i = outC (30 + i)) :=
  have hm : Mapped (oneFileFS 200 [7, 8, 9, 10] 50 []) 0 (blocksFor 64 ((200 : Nat) : Int)) := by
    intro g hg
    have hg2 : g < 4 := hg
    interval_cases g
    · exact ⟨7, rfl, by decide⟩
    · exact ⟨8, rfl, by decide⟩
    · exact ⟨9, rfl, by decide⟩
    · exact ⟨10, rfl, by decide⟩
  ⟨hm, fsRead_compose 64 (by decide) (oneFileFS 200 [7, 8, 9, 10] 50 []) 0 30 100 (fun _ => 1)
    (fun _ => 2) (fun _ => 3) 0 0 50 200 ⟨rfl, rfl⟩ rfl rfl (by decide) (by decide) hm⟩

/-! ## Composition of writes, isolation -/

end BFS
